import Mathlib

/-!
The d2json tool: node ordering and fallback layout.

A shallow embedding of `sdr_backend/tools/cmd/d2json/main.go`:
`calculateNodeOrder`, `calculateNodeLayout` and `flatten`.

Modelling conventions.

* A Go pointer that may be nil is an `Option`; `[]*d2graph.Object` is
  `List (Option Object)`.
* A Go `map[string]V` is a function from keys to values.  For the three maps
  built together in `calculateNodeOrder` the key set is kept next to them in
  `Adjacency.keys`, because the source ranges over the keys of `incoming`.
* `for id, count := range incoming` visits the keys in an order the Go runtime
  chooses.  That order is the explicit argument `keyOrder`; `RangeOrder` says
  that it lists every key of the map exactly once.
* The `for len(queue) > 0` loop is run with fuel; `calculateNodeOrder` gives
  `none` only when the fuel runs out, and `processQueue_isSome` shows that it
  never does.
* `float64` values are integers (`Int`).  Every number the layout computes is
  an integer far below 2^53, where float64 arithmetic is exact, and geometry
  supplied from outside is taken at integer coordinates; NaN, infinities,
  fractions and the sign of zero are outside the model.
* Strings are sequences of Unicode characters; `strings.HasPrefix` and
  `strings.Contains` compare bytes, which on valid UTF-8 text agrees with
  comparing characters.
* The `recover()` blocks guard field reads that cannot fault on the model's
  objects (every field is present), so they are the identity here.
* `len(s)` of a Go string is its length in bytes, `String.utf8ByteSize`; Go
  `int` is 64 bit and `len(label)*8 + 40` cannot wrap for a string that fits
  in memory, so it is a natural number here.
-/

namespace D2Json

/-! ## Data model (the fields of `d2graph` that the program reads) -/

/-- A `d2graph.Object`: `ID`, `Label.Value`, `TopLeft` (nil or a point),
`Width` and `Height`. -/
structure Object where
  ID : String
  Label : String
  TopLeft : Option (Int × Int)
  Width : Int
  Height : Int
deriving DecidableEq

/-- A `d2graph.Edge`: `Src`, `Dst` (either may be nil) and `Label.Value`. -/
structure Edge where
  Src : Option Object
  Dst : Option Object
  Label : String
deriving DecidableEq

/-- A `d2graph.Graph`: `Objects` and `Edges`, either of which may hold nil
entries. -/
structure Graph where
  Objects : List (Option Object)
  Edges : List (Option Edge)
deriving DecidableEq

/-! ## calculateNodeOrder -/

/-- The three maps `outgoing`, `incoming`, `objMap` of `calculateNodeOrder`
with their common key set (in order of first insertion). -/
structure Adjacency where
  keys : List String
  outgoing : String → List Object
  incoming : String → Option Nat
  objMap : String → Option Object

/-- The maps right after the three `make` calls. -/
def emptyAdjacency : Adjacency :=
  { keys := [], outgoing := fun _ => [], incoming := fun _ => none, objMap := fun _ => none }

/-- One pass of the body of `for _, obj := range g.Objects` (lines 53-60). -/
def initStep (m : Adjacency) (o : Option Object) : Adjacency :=
  match o with
  | none => m
  | some obj =>
    { keys := if obj.ID ∈ m.keys then m.keys else m.keys ++ [obj.ID]
      objMap := fun k => if k = obj.ID then some obj else m.objMap k
      incoming := fun k => if k = obj.ID then some 0 else m.incoming k
      outgoing := fun k => if k = obj.ID then [] else m.outgoing k }

/-- The loop "Initialize maps". -/
def initMaps (objs : List (Option Object)) : Adjacency :=
  objs.foldl initStep emptyAdjacency

/-- One pass of the body of `for _, edge := range g.Edges` (lines 63-77).
`incoming[dstID]++` on a key that holds `n` stores `n + 1`; the key is present
whenever the guard `objMap[dstID] != nil` holds, and a missing key would read
as 0. -/
def edgeStep (m : Adjacency) (e : Option Edge) : Adjacency :=
  match e with
  | none => m
  | some edge =>
    match edge.Src, edge.Dst with
    | some src, some dst =>
      match m.objMap src.ID with
      | none => m
      | some _ =>
        match m.objMap dst.ID with
        | none => m
        | some dstObj =>
          { keys := if dst.ID ∈ m.keys then m.keys else m.keys ++ [dst.ID]
            objMap := m.objMap
            outgoing := fun k => if k = src.ID then m.outgoing src.ID ++ [dstObj] else m.outgoing k
            incoming := fun k => if k = dst.ID then some ((m.incoming dst.ID).getD 0 + 1)
                                 else m.incoming k }
    | _, _ => m

/-- The loop "Process edges". -/
def processEdges (m : Adjacency) (edges : List (Option Edge)) : Adjacency :=
  edges.foldl edgeStep m

/-- The adjacency information of a graph: both loops. -/
def buildAdjacency (g : Graph) : Adjacency :=
  processEdges (initMaps g.Objects) g.Edges

/-- The loop "Start with nodes that have no incoming edges" (lines 84-90),
visiting the keys of `incoming` in the order `keyOrder`. -/
def seedQueue (m : Adjacency) (keyOrder : List String) : List (Option Object) :=
  keyOrder.foldl
    (fun queue id =>
      match m.incoming id with
      | some 0 =>
        match m.objMap id with
        | some obj => queue ++ [some obj]
        | none => queue
      | _ => queue)
    []

/-- The loop "Process queue" (lines 100-117).  `visited` lists the keys that
the map `visited` sends to `true`.  The result is `none` exactly when the fuel
is used up while the queue is still non-empty. -/
def processQueue (outgoing : String → List Object) :
    Nat → List (Option Object) → List String → List Object →
      Option (List String × List Object)
  | _, [], visited, result => some (visited, result)
  | 0, _ :: _, _, _ => none
  | fuel + 1, current :: queue, visited, result =>
    match current with
    | none => processQueue outgoing fuel queue visited result
    | some cur =>
      if cur.ID ∈ visited then processQueue outgoing fuel queue visited result
      else
        processQueue outgoing fuel
          (queue ++ ((outgoing cur.ID).filter (fun next => next.ID ∉ cur.ID :: visited)).map some)
          (cur.ID :: visited) (result ++ [cur])

/-- The loop "Add any remaining unvisited nodes" (lines 120-124); `visited`
is not updated by it. -/
def remainingUnvisited (objs : List (Option Object)) (visited : List String) : List Object :=
  objs.filterMap (fun o =>
    match o with
    | none => none
    | some obj => if obj.ID ∈ visited then none else some obj)

/-- The queue after seeding and after the step "If no starting nodes, just use
the first one" (lines 93-95).  `g.Objects[0]` on an empty slice is an index
fault, here `none`. -/
def startQueue (g : Graph) (keyOrder : List String) : Option (List (Option Object)) :=
  let queue := seedQueue (buildAdjacency g) keyOrder
  if queue.length = 0 ∧ g.Objects.length > 0 then
    match g.Objects with
    | [] => none
    | first :: _ => some (queue ++ [first])
  else some queue

/-- The function `calculateNodeOrder`, for the iteration order `keyOrder` of the map
`incoming`.  A nil slice is the empty list; `none` is a fault or a loop that
is still running when the fuel is spent. -/
def calculateNodeOrder (g : Graph) (keyOrder : List String) : Option (List Object) :=
  if g.Objects.length = 0 then some []
  else
    match startQueue g keyOrder with
    | none => none
    | some queue =>
      match processQueue (buildAdjacency g).outgoing (queue.length + g.Edges.length)
          queue [] [] with
      | none => none
      | some (visited, result) => some (result ++ remainingUnvisited g.Objects visited)

/-- An order in which `range incoming` may visit the keys: each key of the map
once. -/
def RangeOrder (g : Graph) (keyOrder : List String) : Prop :=
  keyOrder.Perm (buildAdjacency g).keys

instance (g : Graph) (keyOrder : List String) : Decidable (RangeOrder g keyOrder) := by
  unfold RangeOrder; infer_instance

/-! ## calculateNodeLayout -/

/-- Go `strings.HasPrefix`. -/
def HasPrefix (s pre : String) : Bool :=
  pre.data.isPrefixOf s.data

/-- Whether `sub` occurs as a contiguous block of `s`. -/
def containsChars : List Char → List Char → Bool
  | [], sub => sub.isEmpty
  | c :: cs, sub => sub.isPrefixOf (c :: cs) || containsChars cs sub

/-- Go `strings.Contains`. -/
def Contains (s substr : String) : Bool :=
  containsChars s.data substr.data

/-- The layer of a node id: the `if / else if` chain of lines 310-322 (and,
identically, 355-366). -/
def layerOf (id : String) : String :=
  if HasPrefix id "client_" || Contains id "browser" || Contains id "mobile" then "client"
  else if HasPrefix id "network_" || Contains id "cdn" || Contains id "firewall"
      || Contains id "load_balancer" || Contains id "waf" then "network"
  else if HasPrefix id "application_" || Contains id "server" || Contains id "api"
      || Contains id "service" || Contains id "auth" then "application"
  else if HasPrefix id "database_" || Contains id "db" || Contains id "cache"
      || Contains id "redis" || Contains id "postgresql" || Contains id "mysql"
      || Contains id "mongo" then "database"
  else "default"

/-- The value type of the table `layers`. -/
structure LayerConfig where
  baseX : Int
  baseY : Int
  spacing : Int
  fixedY : Int
deriving DecidableEq

/-- The table `layers` (lines 291-299); a key that is not in a Go map reads as
the zero value. -/
def layers (layer : String) : LayerConfig :=
  if layer = "client" then ⟨50, 150, 150, 150⟩
  else if layer = "network" then ⟨300, 250, 120, 250⟩
  else if layer = "application" then ⟨550, 350, 130, 350⟩
  else if layer = "database" then ⟨950, 450, 140, 450⟩
  else if layer = "default" then ⟨550, 350, 130, 350⟩
  else ⟨0, 0, 0, 0⟩

/-- The type `NodeLayout`: calculated position and dimensions. -/
structure NodeLayout where
  X : Int
  Y : Int
  Width : Int
  Height : Int
deriving DecidableEq

/-- The label that sizes a node (lines 336-342): `Label.Value` unless empty,
then the ID. -/
def labelOf (obj : Object) : String :=
  if obj.Label ≠ "" then obj.Label else obj.ID

/-- The width computation of lines 345-351. -/
def widthOf (label : String) : Int :=
  let width : Int := ((label.utf8ByteSize * 8 + 40 : Nat) : Int)
  let width := if width < 120 then 120 else width
  if width > 200 then 200 else width

/-- The box the positioning loop computes for `obj` when the lane index of its
layer is `index` (lines 336-380). -/
def nodeBox (obj : Object) (index : Nat) : NodeLayout :=
  let layerConfig := layers (layerOf obj.ID)
  { X := layerConfig.baseX + (index : Int) * layerConfig.spacing
    Y := layerConfig.fixedY
    Width := widthOf (labelOf obj)
    Height := 50 }

/-- The maps `layout` and `layerIndexes` of the positioning loop. -/
structure LayoutState where
  layout : String → Option NodeLayout
  layerIndexes : String → Nat

/-- One pass of the positioning loop (lines 330-383). -/
def layoutStep (s : LayoutState) (obj : Object) : LayoutState :=
  let layer := layerOf obj.ID
  { layout := fun k => if k = obj.ID then some (nodeBox obj (s.layerIndexes layer)) else s.layout k
    layerIndexes := fun k => if k = layer then s.layerIndexes layer + 1 else s.layerIndexes k }

/-- The positioning loop over the node order.  The counting loop before it
(lines 305-325) only fills `layerCounts`, which is never read. -/
def placeNodes (nodeOrder : List Object) : LayoutState :=
  nodeOrder.foldl layoutStep { layout := fun _ => none, layerIndexes := fun _ => 0 }

/-- The function `calculateNodeLayout`, for the iteration order `keyOrder` used by
`calculateNodeOrder`. -/
def calculateNodeLayout (g : Graph) (keyOrder : List String) :
    Option (String → Option NodeLayout) :=
  if g.Objects.length = 0 then some (fun _ => none)
  else
    match calculateNodeOrder g keyOrder with
    | none => none
    | some nodeOrder => some (placeNodes nodeOrder).layout

/-! ## flatten -/

/-- The record `jNode`. -/
structure jNode where
  ID : String
  Label : String
  X : Int
  Y : Int
  W : Int
  H : Int
deriving DecidableEq

/-- The record `jEdge`. -/
structure jEdge where
  Source : String
  Target : String
  Label : String
deriving DecidableEq

/-- The record `jDiag`. -/
structure jDiag where
  Nodes : List jNode
  Edges : List jEdge
deriving DecidableEq

/-- The node record for a non-nil object (lines 185-235). -/
def flattenNode (nodeLayout : String → Option NodeLayout) (n : Object) : jNode :=
  let id := n.ID
  let label := if n.Label ≠ "" then n.Label else n.ID
  let x : Int := match n.TopLeft with
    | some p => p.1
    | none => 0
  let y : Int := match n.TopLeft with
    | some p => p.2
    | none => 0
  let w := n.Width
  let h := n.Height
  match nodeLayout id with
  | some layout =>
    { ID := id, Label := label
      X := if x = 0 ∧ y = 0 then layout.X else x
      Y := if x = 0 ∧ y = 0 then layout.Y else y
      W := if w = 0 then layout.Width else w
      H := if h = 0 then layout.Height else h }
  | none => { ID := id, Label := label, X := x, Y := y, W := w, H := h }

/-- The edge record for a non-nil edge (lines 244-268). -/
def flattenEdge (e : Edge) : jEdge :=
  { Source := match e.Src with
      | some src => src.ID
      | none => ""
    Target := match e.Dst with
      | some dst => dst.ID
      | none => ""
    Label := e.Label }

/-- The function `flatten`, for the iteration order `keyOrder` used by
`calculateNodeOrder`. -/
def flatten (g : Graph) (keyOrder : List String) : Option jDiag :=
  match calculateNodeLayout g keyOrder with
  | none => none
  | some nodeLayout =>
    some
      { Nodes := g.Objects.filterMap (fun o => o.map (flattenNode nodeLayout))
        Edges := g.Edges.filterMap (fun e => e.map flattenEdge) }

/-! ## The tier table as the specification words it -/

/-- The rules of the tier table, in order: tier, prefix, substrings. -/
def tierRules : List (String × String × List String) :=
  [("client", "client_", ["browser", "mobile"]),
   ("network", "network_", ["cdn", "firewall", "load_balancer", "waf"]),
   ("application", "application_", ["server", "api", "service", "auth"]),
   ("database", "database_", ["db", "cache", "redis", "postgresql", "mysql", "mongo"])]

/-- An identifier matches a rule when it has the prefix or contains one of the
substrings. -/
def tierMatches (id : String) (rule : String × String × List String) : Bool :=
  HasPrefix id rule.2.1 || rule.2.2.any (fun sub => Contains id sub)

/-- The tier of an identifier: the first matching rule wins, else "default". -/
def tierOf (id : String) : String :=
  match tierRules.find? (tierMatches id) with
  | some rule => rule.1
  | none => "default"

/-- The fixed vertical offset of a tier: client 150, network 250, application
350, database 450, default 350. -/
def tierOffsetY (tier : String) : Int :=
  if tier = "client" then 150
  else if tier = "network" then 250
  else if tier = "application" then 350
  else if tier = "database" then 450
  else 350

/-- The base horizontal offset of a tier: client 50, network 300, application
550, database 950, default 550. -/
def tierBaseX (tier : String) : Int :=
  if tier = "client" then 50
  else if tier = "network" then 300
  else if tier = "application" then 550
  else if tier = "database" then 950
  else 550

/-- The horizontal spacing of a tier: client 150, network 120, application 130,
database 140, default 130. -/
def tierSpacing (tier : String) : Int :=
  if tier = "client" then 150
  else if tier = "network" then 120
  else if tier = "application" then 130
  else if tier = "database" then 140
  else 130

/-- The interiors of the horizontal extents `[X, X + Width]` of two boxes
meet. -/
def Overlap (a b : NodeLayout) : Prop :=
  a.X < b.X + b.Width ∧ b.X < a.X + a.Width

instance (a b : NodeLayout) : Decidable (Overlap a b) := by
  unfold Overlap; infer_instance

/-- The externally supplied x of an object: `TopLeft.X`, or 0 when `TopLeft` is
nil. -/
def externalX (o : Object) : Int :=
  match o.TopLeft with
  | some p => p.1
  | none => 0

/-- The externally supplied y of an object: `TopLeft.Y`, or 0 when `TopLeft` is
nil. -/
def externalY (o : Object) : Int :=
  match o.TopLeft with
  | some p => p.2
  | none => 0

/-! ## Graph notions used to state the properties -/

/-- IDs of the non-nil objects, in input order. -/
def nodeIDs (g : Graph) : List String :=
  g.Objects.reduceOption.map Object.ID

/-- The endpoints of an edge that counts for the ordering: a non-nil edge with
non-nil ends whose IDs both belong to some node. -/
def validEnds (g : Graph) (e : Option Edge) : Option (Object × Object) :=
  match e with
  | some edge =>
    match edge.Src, edge.Dst with
    | some src, some dst =>
      if src.ID ∈ nodeIDs g ∧ dst.ID ∈ nodeIDs g then some (src, dst) else none
    | _, _ => none
  | none => none

/-- The valid edges of a graph as (source, destination) pairs. -/
def validEdges (g : Graph) : List (Object × Object) :=
  g.Edges.filterMap (validEnds g)

/-- Number of valid edges into the node `id`. -/
def inDegree (g : Graph) (id : String) : Nat :=
  ((validEdges g).filter (fun p => p.2.ID = id)).length

/-- In the sequence `r`, `a` comes strictly before `b`. -/
def Before (r : List Object) (a b : Object) : Prop :=
  a ∈ r ∧ b ∈ r ∧ r.indexOf a < r.indexOf b

instance (r : List Object) (a b : Object) : Decidable (Before r a b) := by
  unfold Before; infer_instance

/-- What one edge adds to the maps: source id, destination id and the object
stored under the destination id; `none` when the edge is skipped. -/
def edgeEntry (objMap : String → Option Object) (e : Option Edge) :
    Option (String × String × Object) :=
  match e with
  | some edge =>
    match edge.Src, edge.Dst with
    | some src, some dst =>
      match objMap src.ID, objMap dst.ID with
      | some _, some d => some (src.ID, dst.ID, d)
      | _, _ => none
    | _, _ => none
  | none => none

/-- The update of the maps for one entry. -/
def addEntry (m : Adjacency) (t : String × String × Object) : Adjacency :=
  { keys := if t.2.1 ∈ m.keys then m.keys else m.keys ++ [t.2.1]
    objMap := m.objMap
    outgoing := fun k => if k = t.1 then m.outgoing t.1 ++ [t.2.2] else m.outgoing k
    incoming := fun k => if k = t.2.1 then some ((m.incoming t.2.1).getD 0 + 1)
                         else m.incoming k }

/-- The adjacency entries of a graph, one per edge that is not skipped. -/
def entries (g : Graph) : List (String × String × Object) :=
  g.Edges.filterMap (edgeEntry (initMaps g.Objects).objMap)

/-- The seeding loop as a filter over the visited keys. -/
def seedOf (m : Adjacency) (id : String) : Option (Option Object) :=
  match m.incoming id with
  | some 0 =>
    match m.objMap id with
    | some obj => some (some obj)
    | none => none
  | _ => none

/-- The two ends of an edge entry, without its label. -/
def endsOf (e : Option Edge) : Option (Option Object × Option Object) :=
  e.map (fun x => (x.Src, x.Dst))

/-- The edge entries that join the given pairs of nodes. -/
def joins (pairs : List (Object × Object)) : List (Option (Option Object × Option Object)) :=
  pairs.map (fun p => some (some p.1, some p.2))

/-- Along the list `l`, the map `out` sends every node to its successor only,
and the last node to nothing. -/
def ChainOut (out : String → List Object) : List Object → Prop
  | [] => True
  | [c] => out c.ID = []
  | c :: d :: rest => out c.ID = [d] ∧ ChainOut out (d :: rest)

/-- An end of an edge is nil or carries the ID of a non-nil object of the
graph. -/
def EndKnown (g : Graph) (o : Option Object) : Prop :=
  match o with
  | none => True
  | some x => x.ID ∈ nodeIDs g

instance (g : Graph) (o : Option Object) : Decidable (EndKnown g o) := by
  unfold EndKnown; cases o <;> infer_instance

/-- An edge entry that counts for the ordering, given the object list: non-nil,
with non-nil ends whose IDs both belong to some non-nil object. -/
def validEdge (objs : List (Option Object)) (e : Option Edge) : Bool :=
  (validEnds { Objects := objs, Edges := [] } e).isSome

/-- A graph is acyclic when its nodes can be ranked so that every valid edge
goes from a lower to a higher rank. -/
def Acyclic (g : Graph) : Prop :=
  ∃ rank : String → Nat, ∀ p ∈ validEdges g, rank p.1.ID < rank p.2.ID

/-! ## Example graphs -/

/-- A node with the given ID and nothing else set. -/
def node (id : String) : Object :=
  { ID := id, Label := "", TopLeft := none, Width := 0, Height := 0 }

/-- An unlabelled edge between two nodes. -/
def edge (src dst : Object) : Option Edge :=
  some { Src := some src, Dst := some dst, Label := "" }

/-- Two nodes `a`, `b` and no edge. -/
def twoNodes : Graph :=
  { Objects := [some (node "a"), some (node "b")], Edges := [] }

/-- The cycle a -> b -> a. -/
def twoCycle : Graph :=
  { Objects := [some (node "a"), some (node "b")]
    Edges := [edge (node "a") (node "b"), edge (node "b") (node "a")] }

/-- Five nodes, one per tier, with an edge between the first two. -/
def tiers : Graph :=
  { Objects := [some (node "client_app"), some (node "db_primary"), some (node "my_service"),
      some (node "edge_waf"), some (node "widget")]
    Edges := [edge (node "client_app") (node "edge_waf")] }

/-- A node labelled "DB" next to a node with a label of 25 bytes. -/
def labelled : Graph :=
  { Objects := [some { ID := "store", Label := "DB", TopLeft := none, Width := 0, Height := 0 },
      some { ID := "long", Label := "abcdefghijklmnopqrstuvwxy", TopLeft := none, Width := 0,
             Height := 0 }]
    Edges := [] }

/-- The chain a -> b -> c with nodes and edges listed out of order. -/
def scrambledChain : Graph :=
  { Objects := [some (node "c"), some (node "a"), some (node "b")]
    Edges := [edge (node "b") (node "c"), edge (node "a") (node "b")] }

/-- The diamond a -> b, a -> c, b -> d, c -> d with nodes and edges listed out
of order. -/
def scrambledDiamond : Graph :=
  { Objects := [some (node "d"), some (node "c"), some (node "a"), some (node "b")]
    Edges := [edge (node "c") (node "d"), edge (node "a") (node "c"),
      edge (node "b") (node "d"), edge (node "a") (node "b")] }

/-- The chain db1 -> db2 -> db3 of three database nodes. -/
def threeDatabases : Graph :=
  { Objects := [some (node "db1"), some (node "db2"), some (node "db3")]
    Edges := [edge (node "db1") (node "db2"), edge (node "db2") (node "db3")] }

/-- Two network nodes with identifiers of 11 bytes, an application node and a
default node; no edge. -/
def crowded : Graph :=
  { Objects := [some (node "network_abc"), some (node "network_abd"),
      some (node "my_service"), some (node "widget")]
    Edges := [] }

/-- One node `a` and an edge from it to an object `z` that is not in the object
list. -/
def dangling : Graph :=
  { Objects := [some (node "a")], Edges := [edge (node "a") (node "z")] }

/-- Edges that do not count over the object list of `dangling`: an edge to an
object outside the list, a nil edge and an edge with a nil source. -/
def noisyEdges : List (Option Edge) :=
  [edge (node "a") (node "z"), none,
    some { Src := none, Dst := some (node "a"), Label := "" }]

/-- An object of ID `q` whose label has 11 bytes. -/
def shortQ : Object :=
  { ID := "q", Label := "aaaaaaaaaaa", TopLeft := none, Width := 0, Height := 0 }

/-- An object of ID `q` whose label has 25 bytes. -/
def longQ : Object :=
  { ID := "q", Label := "bbbbbbbbbbbbbbbbbbbbbbbbb", TopLeft := none, Width := 0, Height := 0 }

/-- A node `p`, the two objects `shortQ` and `longQ` that share the ID `q`, and
a self-loop on `q`. -/
def sharedWide : Graph :=
  { Objects := [some (node "p"), some shortQ, some longQ], Edges := [edge shortQ shortQ] }

/-- A node `p`, two objects that share the ID `q` (told apart by their labels),
and a self-loop on `q`. -/
def sharedID : Graph :=
  { Objects := [some (node "p"),
      some { ID := "q", Label := "first", TopLeft := none, Width := 0, Height := 0 },
      some { ID := "q", Label := "second", TopLeft := none, Width := 0, Height := 0 }]
    Edges := [edge (node "q") (node "q")] }

/-- A network node with external width 80 and every other external field
zero. -/
def wideWaf : Object :=
  { ID := "edge_waf", Label := "", TopLeft := some (0, 0), Width := 80, Height := 0 }

/-- The graph of the single node `wideWaf`. -/
def partlyPlaced : Graph :=
  { Objects := [some wideWaf], Edges := [] }

/-- The acyclic graph a -> c, a -> b, b -> c. -/
def triangle : Graph :=
  { Objects := [some (node "a"), some (node "b"), some (node "c")]
    Edges := [edge (node "a") (node "c"), edge (node "a") (node "b"),
      edge (node "b") (node "c")] }

/-! ## The maps built by `calculateNodeOrder` -/

theorem initMaps_snoc (objs : List (Option Object)) (o : Option Object) :
    initMaps (objs ++ [o]) = initStep (initMaps objs) o := by
  simp [initMaps, List.foldl_append]

theorem initMaps_objMap_some {objs : List (Option Object)} {id : String} {o : Object} :
    (initMaps objs).objMap id = some o → some o ∈ objs ∧ o.ID = id := by
  induction objs using List.reverseRecOn generalizing id o with
  | nil => simp [initMaps, emptyAdjacency]
  | append_singleton l x ih =>
    rw [initMaps_snoc]
    cases x with
    | none =>
      intro h
      have := ih h
      simp [initStep] at h ⊢
      exact this
    | some obj =>
      simp only [initStep]
      split_ifs with hk
      · intro h
        have : obj = o := by simpa using h
        subst this
        simp [hk]
      · intro h
        have := ih h
        simp [this.1, this.2]

theorem initMaps_objMap_isSome {objs : List (Option Object)} {o : Object}
    (h : some o ∈ objs) : ∃ x, (initMaps objs).objMap o.ID = some x := by
  induction objs using List.reverseRecOn with
  | nil => simp at h
  | append_singleton l x ih =>
    rw [initMaps_snoc]
    cases x with
    | none =>
      have h1 : some o ∈ l := by simpa using h
      simpa [initStep] using ih h1
    | some obj =>
      simp only [initStep]
      split_ifs with hk
      · exact ⟨obj, rfl⟩
      · have h1 : some o ∈ l := by
          rcases List.mem_append.1 h with h1 | h1
          · exact h1
          · simp at h1
            exact absurd (by rw [h1]) hk
        exact ih h1

theorem initMaps_objMap_self {objs : List (Option Object)}
    (hd : (objs.reduceOption.map Object.ID).Nodup) {o : Object} (h : some o ∈ objs) :
    (initMaps objs).objMap o.ID = some o := by
  obtain ⟨x, hx⟩ := initMaps_objMap_isSome h
  obtain ⟨hx1, hx2⟩ := initMaps_objMap_some hx
  have := List.inj_on_of_nodup_map hd (List.reduceOption_mem_iff.2 hx1)
    (List.reduceOption_mem_iff.2 h) hx2
  rw [hx, this]

theorem initMaps_outgoing (objs : List (Option Object)) (id : String) :
    (initMaps objs).outgoing id = [] := by
  induction objs using List.reverseRecOn with
  | nil => simp [initMaps, emptyAdjacency]
  | append_singleton l x ih =>
    rw [initMaps_snoc]
    cases x with
    | none => simpa [initStep] using ih
    | some obj => simp [initStep, ih]

theorem initMaps_mem_keys (objs : List (Option Object)) (id : String) :
    id ∈ (initMaps objs).keys ↔ id ∈ objs.reduceOption.map Object.ID := by
  induction objs using List.reverseRecOn with
  | nil => simp [initMaps, emptyAdjacency]
  | append_singleton l x ih =>
    rw [initMaps_snoc]
    cases x with
    | none => simpa [initStep, List.reduceOption_append] using ih
    | some obj =>
      simp only [initStep, List.reduceOption_append, List.map_append, List.mem_append]
      split_ifs with hk
      · rw [ih]
        simp [List.reduceOption]
        intro h
        subst h
        simpa [List.reduceOption] using ih.1 hk
      · rw [List.mem_append, ih]
        simp [List.reduceOption]

theorem initMaps_keys_nodup (objs : List (Option Object)) : (initMaps objs).keys.Nodup := by
  induction objs using List.reverseRecOn with
  | nil => simp [initMaps, emptyAdjacency]
  | append_singleton l x ih =>
    rw [initMaps_snoc]
    cases x with
    | none => simpa [initStep] using ih
    | some obj =>
      simp only [initStep]
      split_ifs with hk
      · exact ih
      · exact List.Nodup.append ih (List.nodup_singleton _) (by simpa using hk)

theorem initMaps_incoming (objs : List (Option Object)) (id : String) :
    (initMaps objs).incoming id = if id ∈ (initMaps objs).keys then some 0 else none := by
  induction objs using List.reverseRecOn with
  | nil => simp [initMaps, emptyAdjacency]
  | append_singleton l x ih =>
    rw [initMaps_snoc]
    cases x with
    | none => simpa [initStep] using ih
    | some obj =>
      simp only [initStep]
      by_cases hid : id = obj.ID
      · subst hid
        split_ifs <;> simp_all
      · rw [if_neg hid, ih]
        split_ifs <;> simp_all

theorem edgeStep_eq (m : Adjacency) (e : Option Edge) :
    edgeStep m e = match edgeEntry m.objMap e with
      | none => m
      | some t => addEntry m t := by
  cases e with
  | none => rfl
  | some edge =>
    obtain ⟨src, dst, lbl⟩ := edge
    cases src with
    | none => cases dst <;> rfl
    | some s =>
      cases dst with
      | none => rfl
      | some d =>
        simp only [edgeStep, edgeEntry]
        cases h1 : m.objMap s.ID with
        | none => simp
        | some a =>
          cases h2 : m.objMap d.ID with
          | none => simp
          | some b => simp [addEntry]

theorem edgeStep_objMap (m : Adjacency) (e : Option Edge) :
    (edgeStep m e).objMap = m.objMap := by
  rw [edgeStep_eq]
  cases edgeEntry m.objMap e <;> simp [addEntry]

theorem processEdges_objMap (m : Adjacency) (es : List (Option Edge)) :
    (processEdges m es).objMap = m.objMap := by
  induction es generalizing m with
  | nil => rfl
  | cons e es ih =>
    simp only [processEdges, List.foldl_cons] at ih ⊢
    rw [ih, edgeStep_objMap]

theorem processEdges_cons (m : Adjacency) (e : Option Edge) (es : List (Option Edge)) :
    processEdges m (e :: es) = processEdges (edgeStep m e) es := rfl

theorem processEdges_outgoing (m : Adjacency) (es : List (Option Edge)) (id : String) :
    (processEdges m es).outgoing id =
      m.outgoing id ++
        ((es.filterMap (edgeEntry m.objMap)).filter (fun t => t.1 = id)).map (fun t => t.2.2) := by
  induction es generalizing m with
  | nil => simp [processEdges]
  | cons e es ih =>
    rw [processEdges_cons, ih, edgeStep_objMap, edgeStep_eq]
    cases h : edgeEntry m.objMap e with
    | none => simp [List.filterMap_cons, h]
    | some t =>
      simp only [List.filterMap_cons, h, addEntry]
      by_cases hk : id = t.1
      · subst hk
        simp [List.filter_cons]
      · have hk2 : ¬ t.1 = id := fun h => hk h.symm
        simp [List.filter_cons, hk, hk2]

theorem processEdges_incoming (m : Adjacency) (es : List (Option Edge)) (id : String) :
    (processEdges m es).incoming id =
      if ((es.filterMap (edgeEntry m.objMap)).filter (fun t => t.2.1 = id)).length = 0
      then m.incoming id
      else some ((m.incoming id).getD 0 +
        ((es.filterMap (edgeEntry m.objMap)).filter (fun t => t.2.1 = id)).length) := by
  induction es generalizing m with
  | nil => simp [processEdges]
  | cons e es ih =>
    rw [processEdges_cons, ih, edgeStep_objMap, edgeStep_eq]
    cases h : edgeEntry m.objMap e with
    | none => simp only [List.filterMap_cons, h]
    | some t =>
      simp only [List.filterMap_cons, h, addEntry]
      by_cases hk : id = t.2.1
      · subst hk
        rw [List.filter_cons_of_pos (by simp)]
        simp only [if_true, List.length_cons, Option.getD_some]
        rw [if_neg (Nat.succ_ne_zero _)]
        split_ifs with h0
        · rw [h0]
        · congr 1
          omega
      · have hk2 : ¬ t.2.1 = id := fun h => hk h.symm
        rw [List.filter_cons_of_neg (by simpa using hk2), if_neg hk]

theorem processEdges_keys (m : Adjacency) (es : List (Option Edge))
    (hm : ∀ id o, m.objMap id = some o → id ∈ m.keys) :
    (processEdges m es).keys = m.keys := by
  induction es generalizing m with
  | nil => rfl
  | cons e es ih =>
    have hstep : (edgeStep m e).keys = m.keys := by
      rw [edgeStep_eq]
      cases h : edgeEntry m.objMap e with
      | none => rfl
      | some t =>
        have hmem : t.2.1 ∈ m.keys := by
          cases e with
          | none => simp [edgeEntry] at h
          | some edge =>
            obtain ⟨src, dst, lbl⟩ := edge
            cases src with
            | none => cases dst <;> simp [edgeEntry] at h
            | some s =>
              cases dst with
              | none => simp [edgeEntry] at h
              | some d =>
                simp only [edgeEntry] at h
                cases h1 : m.objMap s.ID with
                | none => simp [h1] at h
                | some a =>
                  cases h2 : m.objMap d.ID with
                  | none => simp [h1, h2] at h
                  | some b =>
                    simp [h1, h2] at h
                    rw [← h]
                    exact hm _ _ h2
        simp [addEntry, hmem]
    rw [processEdges_cons, ih, hstep]
    intro id o ho
    rw [hstep]
    rw [edgeStep_objMap] at ho
    exact hm id o ho

/-! ## The queue loop -/

theorem processQueue_nil (out : String → List Object) (fuel : Nat) (v : List String)
    (r : List Object) : processQueue out fuel [] v r = some (v, r) := by
  cases fuel <;> rfl

theorem processQueue_none_cons (out : String → List Object) (fuel : Nat)
    (q : List (Option Object)) (v : List String) (r : List Object) :
    processQueue out (fuel + 1) (none :: q) v r = processQueue out fuel q v r := rfl

theorem processQueue_visited_cons (out : String → List Object) (fuel : Nat) (cur : Object)
    (q : List (Option Object)) (v : List String) (r : List Object) (h : cur.ID ∈ v) :
    processQueue out (fuel + 1) (some cur :: q) v r = processQueue out fuel q v r := by
  simp [processQueue, h]

theorem processQueue_fresh_cons (out : String → List Object) (fuel : Nat) (cur : Object)
    (q : List (Option Object)) (v : List String) (r : List Object) (h : cur.ID ∉ v) :
    processQueue out (fuel + 1) (some cur :: q) v r =
      processQueue out fuel
        (q ++ ((out cur.ID).filter (fun next => next.ID ∉ cur.ID :: v)).map some)
        (cur.ID :: v) (r ++ [cur]) := by
  simp [processQueue, h]

/-- Entries whose key is `c`, and entries whose key is outside `c :: v`, make up
the entries whose key is outside `v`. -/
theorem length_filter_fresh {τ : Type} (T : List τ) (key : τ → String) (c : String)
    (v : List String) (hc : c ∉ v) :
    (T.filter (fun t => key t = c)).length + (T.filter (fun t => key t ∉ c :: v)).length =
      (T.filter (fun t => key t ∉ v)).length := by
  induction T with
  | nil => rfl
  | cons t T ih =>
    by_cases h1 : key t = c
    · have h2 : key t ∉ v := by rw [h1]; exact hc
      rw [List.filter_cons_of_pos (by simpa using h1),
        List.filter_cons_of_neg (by simp [h1]),
        List.filter_cons_of_pos (by simpa using h2)]
      simp only [List.length_cons]
      omega
    · by_cases h2 : key t ∈ v
      · rw [List.filter_cons_of_neg (by simpa using h1),
          List.filter_cons_of_neg (by simp [h2]),
          List.filter_cons_of_neg (by simpa using h2)]
        exact ih
      · rw [List.filter_cons_of_neg (by simpa using h1),
          List.filter_cons_of_pos (by simp [h1, h2]),
          List.filter_cons_of_pos (by simpa using h2)]
        simp only [List.length_cons]
        omega

/-- The queue loop ends within `len(queue)` plus the number of adjacency
entries of unvisited keys many passes. -/
theorem processQueue_isSome {τ : Type} (out : String → List Object) (T : List τ)
    (key : τ → String) (val : τ → Object)
    (hT : ∀ id, out id = ((T.filter (fun t => key t = id)).map val)) :
    ∀ (fuel : Nat) (q : List (Option Object)) (v : List String) (r : List Object),
      q.length + (T.filter (fun t => key t ∉ v)).length ≤ fuel →
        (processQueue out fuel q v r).isSome := by
  intro fuel
  induction fuel with
  | zero =>
    intro q v r h
    cases q with
    | nil => rfl
    | cons a q => simp at h
  | succ fuel ih =>
    intro q v r h
    cases q with
    | nil => rfl
    | cons a q =>
      simp only [List.length_cons] at h
      cases a with
      | none =>
        rw [processQueue_none_cons]
        exact ih _ _ _ (by omega)
      | some cur =>
        by_cases hv : cur.ID ∈ v
        · rw [processQueue_visited_cons _ _ _ _ _ _ hv]
          exact ih _ _ _ (by omega)
        · rw [processQueue_fresh_cons _ _ _ _ _ _ hv]
          apply ih
          have h1 := length_filter_fresh T key cur.ID v hv
          have h2 : ((out cur.ID).filter (fun next => next.ID ∉ cur.ID :: v)).length ≤
              (T.filter (fun t => key t = cur.ID)).length := by
            refine le_trans (List.length_filter_le _ _) ?_
            rw [hT, List.length_map]
          simp only [List.length_append, List.length_map]
          omega

/-- More fuel does not change what the queue loop returns. -/
theorem processQueue_mono (out : String → List Object) :
    ∀ (fuel : Nat) (q : List (Option Object)) (v : List String) (r : List Object)
      (x : List String × List Object),
      processQueue out fuel q v r = some x → ∀ k, processQueue out (fuel + k) q v r = some x := by
  intro fuel
  induction fuel with
  | zero =>
    intro q v r x h k
    cases q with
    | nil => rw [processQueue_nil] at h ⊢; exact h
    | cons a q => simp [processQueue] at h
  | succ fuel ih =>
    intro q v r x h k
    cases q with
    | nil => rw [processQueue_nil] at h ⊢; exact h
    | cons a q =>
      have hk : fuel + 1 + k = (fuel + k) + 1 := by omega
      rw [hk]
      cases a with
      | none =>
        rw [processQueue_none_cons] at h ⊢
        exact ih _ _ _ _ h k
      | some cur =>
        by_cases hv : cur.ID ∈ v
        · rw [processQueue_visited_cons _ _ _ _ _ _ hv] at h ⊢
          exact ih _ _ _ _ h k
        · rw [processQueue_fresh_cons _ _ _ _ _ _ hv] at h ⊢
          exact ih _ _ _ _ h k

/-- What the queue loop returns: the nodes it appends have pairwise different
IDs, none of them visited before; `visited` grows by exactly their IDs; and each
of them was in the queue or is a neighbour stored in `outgoing`. -/
theorem processQueue_spec (out : String → List Object) :
    ∀ (fuel : Nat) (q : List (Option Object)) (v : List String) (r : List Object)
      (v1 : List String) (r1 : List Object),
      processQueue out fuel q v r = some (v1, r1) →
        ∃ extra : List Object, r1 = r ++ extra ∧ v1 = (extra.map Object.ID).reverse ++ v ∧
          (extra.map Object.ID).Nodup ∧ (∀ x ∈ extra, x.ID ∉ v) ∧
          (∀ x ∈ extra, some x ∈ q ∨ ∃ id, x ∈ out id) := by
  intro fuel
  induction fuel with
  | zero =>
    intro q v r v1 r1 h
    cases q with
    | nil =>
      rw [processQueue_nil] at h
      simp only [Option.some.injEq, Prod.mk.injEq] at h
      exact ⟨[], by simp [h.1, h.2]⟩
    | cons a q => simp [processQueue] at h
  | succ fuel ih =>
    intro q v r v1 r1 h
    cases q with
    | nil =>
      rw [processQueue_nil] at h
      simp only [Option.some.injEq, Prod.mk.injEq] at h
      exact ⟨[], by simp [h.1, h.2]⟩
    | cons a q =>
      cases a with
      | none =>
        rw [processQueue_none_cons] at h
        obtain ⟨extra, h1, h2, h3, h4, h5⟩ := ih _ _ _ _ _ h
        refine ⟨extra, h1, h2, h3, h4, fun x hx => ?_⟩
        rcases h5 x hx with h6 | h6
        · exact Or.inl (List.mem_cons_of_mem _ h6)
        · exact Or.inr h6
      | some cur =>
        by_cases hv : cur.ID ∈ v
        · rw [processQueue_visited_cons _ _ _ _ _ _ hv] at h
          obtain ⟨extra, h1, h2, h3, h4, h5⟩ := ih _ _ _ _ _ h
          refine ⟨extra, h1, h2, h3, h4, fun x hx => ?_⟩
          rcases h5 x hx with h6 | h6
          · exact Or.inl (List.mem_cons_of_mem _ h6)
          · exact Or.inr h6
        · rw [processQueue_fresh_cons _ _ _ _ _ _ hv] at h
          obtain ⟨extra, h1, h2, h3, h4, h5⟩ := ih _ _ _ _ _ h
          refine ⟨cur :: extra, ?_, ?_, ?_, ?_, ?_⟩
          · simp [h1]
          · simp [h2]
          · rw [List.map_cons, List.nodup_cons]
            refine ⟨?_, h3⟩
            intro hmem
            obtain ⟨x, hx, hxid⟩ := List.mem_map.1 hmem
            exact h4 x hx (by simp [hxid])
          · intro x hx
            rcases List.mem_cons.1 hx with hx | hx
            · rw [hx]; exact hv
            · exact fun hxv => h4 x hx (List.mem_cons_of_mem _ hxv)
          · intro x hx
            rcases List.mem_cons.1 hx with hx | hx
            · left; rw [hx]; exact List.mem_cons_self _ _
            · rcases h5 x hx with h6 | h6
              · rcases List.mem_append.1 h6 with h7 | h7
                · exact Or.inl (List.mem_cons_of_mem _ h7)
                · right
                  refine ⟨cur.ID, ?_⟩
                  obtain ⟨y, hy, hyx⟩ := List.mem_map.1 h7
                  cases hyx
                  exact (List.mem_filter.1 hy).1
              · exact Or.inr h6

/-! ## The maps of a graph -/

theorem buildAdjacency_objMap (g : Graph) :
    (buildAdjacency g).objMap = (initMaps g.Objects).objMap :=
  processEdges_objMap _ _

theorem buildAdjacency_outgoing (g : Graph) (id : String) :
    (buildAdjacency g).outgoing id =
      ((entries g).filter (fun t => t.1 = id)).map (fun t => t.2.2) := by
  rw [buildAdjacency, processEdges_outgoing, initMaps_outgoing]
  rfl

theorem buildAdjacency_incoming (g : Graph) (id : String) :
    (buildAdjacency g).incoming id =
      if id ∈ nodeIDs g then some ((entries g).filter (fun t => t.2.1 = id)).length
      else none := by
  have hmem : ∀ t ∈ entries g, t.2.1 ∈ nodeIDs g := by
    intro t ht
    obtain ⟨e, -, he⟩ := List.mem_filterMap.1 ht
    cases e with
    | none => simp [edgeEntry] at he
    | some edge =>
      obtain ⟨src, dst, lbl⟩ := edge
      cases src with
      | none => cases dst <;> simp [edgeEntry] at he
      | some a =>
        cases dst with
        | none => simp [edgeEntry] at he
        | some d =>
          simp only [edgeEntry] at he
          cases h1 : (initMaps g.Objects).objMap a.ID with
          | none => simp [h1] at he
          | some x =>
            cases h2 : (initMaps g.Objects).objMap d.ID with
            | none => simp [h1, h2] at he
            | some y =>
              simp only [h1, h2, Option.some.injEq] at he
              rw [← he]
              obtain ⟨hy1, hy2⟩ := initMaps_objMap_some h2
              exact List.mem_map.2 ⟨y, List.reduceOption_mem_iff.2 hy1, hy2⟩
  rw [buildAdjacency, processEdges_incoming, initMaps_incoming]
  change (if ((entries g).filter (fun t => t.2.1 = id)).length = 0 then _ else _) = _
  by_cases hid : id ∈ nodeIDs g
  · have hk : id ∈ (initMaps g.Objects).keys := (initMaps_mem_keys _ _).2 hid
    rw [if_pos hk, if_pos hid]
    split_ifs with h0
    · rw [h0]
    · simp [entries]
  · have hk : id ∉ (initMaps g.Objects).keys := fun h => hid ((initMaps_mem_keys _ _).1 h)
    rw [if_neg hk, if_neg hid, if_pos]
    rw [List.length_eq_zero, List.filter_eq_nil_iff]
    intro t ht
    have := hmem t ht
    simp only [decide_eq_true_eq]
    intro h
    exact hid (h ▸ this)

theorem buildAdjacency_keys (g : Graph) :
    (buildAdjacency g).keys = (initMaps g.Objects).keys := by
  apply processEdges_keys
  intro id o h
  obtain ⟨h1, h2⟩ := initMaps_objMap_some h
  exact (initMaps_mem_keys _ _).2 (List.mem_map.2 ⟨o, List.reduceOption_mem_iff.2 h1, h2⟩)

theorem seedQueue_eq (m : Adjacency) (keyOrder : List String) :
    seedQueue m keyOrder = keyOrder.filterMap (seedOf m) := by
  have key : ∀ (ks : List String) (acc : List (Option Object)),
      ks.foldl (fun queue id =>
        match m.incoming id with
        | some 0 =>
          match m.objMap id with
          | some obj => queue ++ [some obj]
          | none => queue
        | _ => queue) acc = acc ++ ks.filterMap (seedOf m) := by
    intro ks
    induction ks with
    | nil => simp
    | cons k ks ih =>
      intro acc
      rw [List.foldl_cons, ih, List.filterMap_cons]
      unfold seedOf
      cases h1 : m.incoming k with
      | none => simp
      | some n =>
        cases n with
        | zero =>
          cases h2 : m.objMap k with
          | none => simp
          | some obj => simp
        | succ n => simp
  simpa [seedQueue] using key keyOrder []

theorem seedOf_some {m : Adjacency} {id : String} {x : Option Object}
    (h : seedOf m id = some x) :
    m.incoming id = some 0 ∧ ∃ obj, x = some obj ∧ m.objMap id = some obj := by
  unfold seedOf at h
  cases h1 : m.incoming id with
  | none => simp [h1] at h
  | some n =>
    cases n with
    | zero =>
      cases h2 : m.objMap id with
      | none => simp [h1, h2] at h
      | some obj =>
        simp [h1, h2] at h
        exact ⟨rfl, obj, h.symm, rfl⟩
    | succ n => simp [h1] at h

theorem startQueue_isSome (g : Graph) (keyOrder : List String) :
    ∃ queue, startQueue g keyOrder = some queue := by
  unfold startQueue
  simp only
  split_ifs with h
  · cases hg : g.Objects with
    | nil => simp [hg] at h
    | cons a l => exact ⟨_, rfl⟩
  · exact ⟨_, rfl⟩

/-- The queue loop of `calculateNodeOrder` returns: the fuel it is given, or
any larger amount, is enough. -/
theorem processQueue_graph (g : Graph) (queue : List (Option Object)) :
    ∃ v r, ∀ k, processQueue (buildAdjacency g).outgoing (queue.length + g.Edges.length + k)
      queue [] [] = some (v, r) := by
  have h := processQueue_isSome (buildAdjacency g).outgoing (entries g) (fun t => t.1)
    (fun t => t.2.2) (buildAdjacency_outgoing g) (queue.length + g.Edges.length) queue [] [] (by
      have h2 : (entries g).length ≤ g.Edges.length := List.length_filterMap_le _ _
      exact Nat.add_le_add_left (le_trans (List.length_filter_le _ _) h2) _)
  obtain ⟨x, hx⟩ := Option.isSome_iff_exists.1 h
  exact ⟨x.1, x.2, fun k => processQueue_mono _ _ _ _ _ _ hx k⟩

/-- Unfolding of `calculateNodeOrder` on a graph with at least one entry. -/
theorem calculateNodeOrder_eq (g : Graph) (keyOrder : List String)
    (queue : List (Option Object)) (v : List String) (r : List Object)
    (hq : startQueue g keyOrder = some queue)
    (hp : processQueue (buildAdjacency g).outgoing (queue.length + g.Edges.length) queue [] [] =
      some (v, r)) :
    calculateNodeOrder g keyOrder = some (r ++ remainingUnvisited g.Objects v) := by
  unfold calculateNodeOrder
  split_ifs with h0
  · have hnil : g.Objects = [] := List.length_eq_zero.1 h0
    have hq2 : queue = [] := by
      unfold startQueue at hq
      simp only [hnil, List.length_nil, gt_iff_lt, lt_self_iff_false, and_false, if_false,
        Option.some.injEq] at hq
      rw [← hq, seedQueue_eq]
      apply List.filterMap_eq_nil_iff.2
      intro id _
      unfold seedOf
      rw [buildAdjacency_incoming]
      simp [nodeIDs, hnil]
    subst hq2
    rw [processQueue_nil] at hp
    simp only [Option.some.injEq, Prod.mk.injEq] at hp
    simp [← hp.1, ← hp.2, hnil, remainingUnvisited]
  · simp only [hq, hp]

/-! ## The returned order -/

theorem remainingUnvisited_eq (objs : List (Option Object)) (v : List String) :
    remainingUnvisited objs v = objs.reduceOption.filter (fun o => o.ID ∉ v) := by
  induction objs with
  | nil => rfl
  | cons a l ih =>
    cases a with
    | none =>
      simpa [remainingUnvisited, List.reduceOption_cons_of_none] using ih
    | some o =>
      rw [List.reduceOption_cons_of_some]
      unfold remainingUnvisited at ih ⊢
      rw [List.filterMap_cons]
      by_cases h : o.ID ∈ v
      · simp only [h, if_true]
        rw [List.filter_cons_of_neg (by simpa using h)]
        exact ih
      · simp only [h, if_false]
        rw [List.filter_cons_of_pos (by simpa using h), ih]

theorem outgoing_mem_objects (g : Graph) {id : String} {x : Object}
    (h : x ∈ (buildAdjacency g).outgoing id) : some x ∈ g.Objects := by
  rw [buildAdjacency_outgoing] at h
  obtain ⟨t, ht, rfl⟩ := List.mem_map.1 h
  have ht2 := (List.mem_filter.1 ht).1
  obtain ⟨e, -, he⟩ := List.mem_filterMap.1 ht2
  cases e with
  | none => simp [edgeEntry] at he
  | some edge =>
    obtain ⟨src, dst, lbl⟩ := edge
    cases src with
    | none => cases dst <;> simp [edgeEntry] at he
    | some a =>
      cases dst with
      | none => simp [edgeEntry] at he
      | some d =>
        simp only [edgeEntry] at he
        cases h1 : (initMaps g.Objects).objMap a.ID with
        | none => simp [h1] at he
        | some x =>
          cases h2 : (initMaps g.Objects).objMap d.ID with
          | none => simp [h1, h2] at he
          | some y =>
            simp only [h1, h2, Option.some.injEq] at he
            rw [← he]
            exact (initMaps_objMap_some h2).1

theorem startQueue_mem_objects (g : Graph) (keyOrder : List String)
    {queue : List (Option Object)} (hq : startQueue g keyOrder = some queue) {x : Object}
    (hx : some x ∈ queue) : some x ∈ g.Objects := by
  have hseed : ∀ y : Object, some y ∈ seedQueue (buildAdjacency g) keyOrder →
      some y ∈ g.Objects := by
    intro y hy
    rw [seedQueue_eq] at hy
    obtain ⟨id, -, hid⟩ := List.mem_filterMap.1 hy
    obtain ⟨-, obj, h1, h2⟩ := seedOf_some hid
    rw [buildAdjacency_objMap] at h2
    cases h1
    exact (initMaps_objMap_some h2).1
  unfold startQueue at hq
  simp only at hq
  split_ifs at hq with h
  · cases hg : g.Objects with
    | nil => simp [hg] at h
    | cons a l =>
      rw [hg] at hq
      simp only [Option.some.injEq] at hq
      rw [← hq] at hx
      rcases List.mem_append.1 hx with h1 | h1
      · rw [← hg]; exact hseed x h1
      · simp only [List.mem_singleton] at h1
        rw [← h1]
        exact List.mem_cons_self _ _
  · simp only [Option.some.injEq] at hq
    rw [← hq] at hx
    exact hseed x hx

/-- The shape of every result of `calculateNodeOrder`: the nodes `r` appended by
the queue loop have pairwise different IDs and are objects of the graph, and
they are followed by the objects whose ID is not among theirs. -/
theorem calculateNodeOrder_spec (g : Graph) (keyOrder : List String) :
    ∃ (queue : List (Option Object)) (r : List Object),
      startQueue g keyOrder = some queue ∧
      processQueue (buildAdjacency g).outgoing (queue.length + g.Edges.length) queue [] [] =
        some ((r.map Object.ID).reverse, r) ∧
      calculateNodeOrder g keyOrder =
        some (r ++ g.Objects.reduceOption.filter (fun o => o.ID ∉ r.map Object.ID)) ∧
      (r.map Object.ID).Nodup ∧ (∀ x ∈ r, some x ∈ g.Objects) ∧
      (∀ x ∈ r, some x ∈ queue ∨ ∃ id, x ∈ (buildAdjacency g).outgoing id) := by
  obtain ⟨queue, hq⟩ := startQueue_isSome g keyOrder
  obtain ⟨v, r, hp⟩ := processQueue_graph g queue
  have hp0 := hp 0
  rw [Nat.add_zero] at hp0
  obtain ⟨extra, h1, h2, h3, -, h5⟩ := processQueue_spec _ _ _ _ _ _ _ hp0
  simp only [List.nil_append] at h1
  simp only [List.append_nil] at h2
  subst h1
  subst h2
  refine ⟨queue, r, hq, hp0, ?_, h3, ?_, h5⟩
  · rw [calculateNodeOrder_eq g keyOrder queue _ r hq hp0, remainingUnvisited_eq]
    congr 2
    apply List.filter_congr
    intro o _
    simp
  · intro x hx
    rcases h5 x hx with h6 | ⟨id, h6⟩
    · exact startQueue_mem_objects g keyOrder hq h6
    · exact outgoing_mem_objects g h6

/-- With pairwise different IDs, the result is a rearrangement of the non-nil
objects. -/
theorem nodeOrder_perm (g : Graph) (keyOrder : List String)
    (hd : (nodeIDs g).Nodup) :
    ∃ r, calculateNodeOrder g keyOrder = some r ∧ r.Perm g.Objects.reduceOption := by
  obtain ⟨queue, r, -, -, hc, hn, hm, -⟩ := calculateNodeOrder_spec g keyOrder
  refine ⟨_, hc, ?_⟩
  have hobjs : g.Objects.reduceOption.Nodup := List.Nodup.of_map _ hd
  have hr : r.Nodup := List.Nodup.of_map _ hn
  have hiff : ∀ o ∈ g.Objects.reduceOption, (o.ID ∈ r.map Object.ID ↔ o ∈ r) := by
    intro o ho
    constructor
    · intro h
      obtain ⟨x, hx, hxo⟩ := List.mem_map.1 h
      have := List.inj_on_of_nodup_map hd (List.reduceOption_mem_iff.2 (hm x hx)) ho hxo
      rw [← this]; exact hx
    · exact fun h => List.mem_map.2 ⟨o, h, rfl⟩
  have h1 : g.Objects.reduceOption.filter (fun o => o.ID ∉ r.map Object.ID) =
      g.Objects.reduceOption.filter (fun o => !decide (o ∈ r)) := by
    apply List.filter_congr
    intro o ho
    simp [hiff o ho]
  have h2 : r.Perm (g.Objects.reduceOption.filter (fun o => decide (o ∈ r))) := by
    apply (List.perm_ext_iff_of_nodup hr (hobjs.filter _)).2
    intro a
    simp only [List.mem_filter, decide_eq_true_eq]
    exact ⟨fun h => ⟨List.reduceOption_mem_iff.2 (hm a h), h⟩, fun h => h.2⟩
  rw [h1]
  exact (List.Perm.append_right _ h2).trans (List.filter_append_perm _ _)

theorem objects_eq_map_some (g : Graph) (hnil : ∀ o ∈ g.Objects, o ≠ none) :
    g.Objects = g.Objects.reduceOption.map some := by
  generalize g.Objects = l at hnil
  induction l with
  | nil => rfl
  | cons a l ih =>
    cases a with
    | none => exact absurd rfl (hnil none (List.mem_cons_self _ _))
    | some o =>
      rw [List.reduceOption_cons_of_some, List.map_cons,
        ← ih (fun x hx => hnil x (List.mem_cons_of_mem _ hx))]

theorem initMaps_objMap_ne_none (objs : List (Option Object)) (id : String) :
    (initMaps objs).objMap id ≠ none ↔ id ∈ objs.reduceOption.map Object.ID := by
  constructor
  · intro h
    obtain ⟨o, ho⟩ := Option.ne_none_iff_exists'.1 h
    obtain ⟨h1, h2⟩ := initMaps_objMap_some ho
    exact List.mem_map.2 ⟨o, List.reduceOption_mem_iff.2 h1, h2⟩
  · intro h
    obtain ⟨o, ho, rfl⟩ := List.mem_map.1 h
    obtain ⟨x, hx⟩ := initMaps_objMap_isSome (List.reduceOption_mem_iff.1 ho)
    rw [hx]
    simp

/-- The entry of an edge in terms of its valid ends. -/
theorem edgeEntry_eq_validEnds (g : Graph) (e : Option Edge) :
    edgeEntry (initMaps g.Objects).objMap e =
      (validEnds g e).bind (fun p =>
        ((initMaps g.Objects).objMap p.2.ID).map (fun x => (p.1.ID, p.2.ID, x))) := by
  cases e with
  | none => rfl
  | some edge =>
    obtain ⟨src, dst, lbl⟩ := edge
    cases src with
    | none => cases dst <;> rfl
    | some a =>
      cases dst with
      | none => rfl
      | some d =>
        simp only [edgeEntry, validEnds]
        have ha := initMaps_objMap_ne_none g.Objects a.ID
        have hd := initMaps_objMap_ne_none g.Objects d.ID
        cases h1 : (initMaps g.Objects).objMap a.ID with
        | none =>
          have : a.ID ∉ nodeIDs g := fun h => (ha.2 h) h1
          simp [this]
        | some x =>
          have hx : a.ID ∈ nodeIDs g := ha.1 (by rw [h1]; simp)
          cases h2 : (initMaps g.Objects).objMap d.ID with
          | none =>
            have : d.ID ∉ nodeIDs g := fun h => (hd.2 h) h2
            simp [this]
          | some y =>
            have hy : d.ID ∈ nodeIDs g := hd.1 (by rw [h2]; simp)
            simp [hx, hy, h2]

theorem entries_length_dst (g : Graph) (id : String) :
    ((entries g).filter (fun t => t.2.1 = id)).length = inDegree g id := by
  unfold entries inDegree validEdges
  induction g.Edges with
  | nil => rfl
  | cons e es ih =>
    rw [List.filterMap_cons, List.filterMap_cons, edgeEntry_eq_validEnds]
    cases hv : validEnds g e with
    | none => simpa using ih
    | some p =>
      have hp : p.2.ID ∈ nodeIDs g := by
        cases e with
        | none => simp [validEnds] at hv
        | some edge =>
          obtain ⟨src, dst, lbl⟩ := edge
          cases src with
          | none => cases dst <;> simp [validEnds] at hv
          | some a =>
            cases dst with
            | none => simp [validEnds] at hv
            | some d =>
              simp only [validEnds] at hv
              split_ifs at hv with hh
              simp only [Option.some.injEq] at hv
              rw [← hv]
              exact hh.2
      obtain ⟨y, hy⟩ := Option.ne_none_iff_exists'.1
        ((initMaps_objMap_ne_none g.Objects p.2.ID).2 hp)
      simp only [Option.some_bind, hy, Option.map_some']
      by_cases hid : p.2.ID = id
      · rw [List.filter_cons_of_pos (by simpa using hid),
          List.filter_cons_of_pos (by simpa using hid), List.length_cons, List.length_cons, ih]
      · rw [List.filter_cons_of_neg (by simpa using hid),
          List.filter_cons_of_neg (by simpa using hid), ih]

/-- The value `incoming` holds for a node is its in-degree among the valid
edges. -/
theorem buildAdjacency_incoming_inDegree (g : Graph) (id : String) :
    (buildAdjacency g).incoming id = if id ∈ nodeIDs g then some (inDegree g id) else none := by
  rw [buildAdjacency_incoming, entries_length_dst]

theorem seedOf_eq_none_of_pos (g : Graph) (id : String)
    (h : id ∈ nodeIDs g → 1 ≤ inDegree g id) : seedOf (buildAdjacency g) id = none := by
  unfold seedOf
  rw [buildAdjacency_incoming_inDegree]
  by_cases hid : id ∈ nodeIDs g
  · rw [if_pos hid]
    have := h hid
    cases hn : inDegree g id with
    | zero => omega
    | succ n => rfl
  · rw [if_neg hid]

/-! ## The layout map -/

theorem placeNodes_snoc (l : List Object) (o : Object) :
    placeNodes (l ++ [o]) = layoutStep (placeNodes l) o := by
  simp [placeNodes, List.foldl_append]

/-- Every entry of the layout map is the box computed in the pass of some node
with that ID. -/
theorem placeNodes_layout_some {l : List Object} {id : String} {box : NodeLayout} :
    (placeNodes l).layout id = some box → ∃ o ∈ l, ∃ k, o.ID = id ∧ box = nodeBox o k := by
  induction l using List.reverseRecOn generalizing id box with
  | nil => simp [placeNodes]
  | append_singleton l x ih =>
    rw [placeNodes_snoc]
    simp only [layoutStep]
    split_ifs with hk
    · intro h
      simp only [Option.some.injEq] at h
      exact ⟨x, by simp, _, hk.symm, h.symm⟩
    · intro h
      obtain ⟨o, ho, k, h1, h2⟩ := ih h
      exact ⟨o, List.mem_append_left _ ho, k, h1, h2⟩

/-- Every node of the order has an entry in the layout map. -/
theorem placeNodes_layout_isSome {l : List Object} {id : String}
    (h : id ∈ l.map Object.ID) : ∃ box, (placeNodes l).layout id = some box := by
  induction l using List.reverseRecOn with
  | nil => simp at h
  | append_singleton l x ih =>
    rw [placeNodes_snoc]
    simp only [layoutStep]
    split_ifs with hk
    · exact ⟨_, rfl⟩
    · apply ih
      rw [List.map_append, List.mem_append] at h
      rcases h with h | h
      · exact h
      · simp only [List.map_cons, List.map_nil, List.mem_singleton] at h
        exact absurd h hk

/-- The result of `calculateNodeOrder` consists of objects of the graph and
covers the ID of every non-nil object. -/
theorem calculateNodeOrder_cover (g : Graph) (keyOrder : List String) :
    ∃ r, calculateNodeOrder g keyOrder = some r ∧ (∀ x ∈ r, some x ∈ g.Objects) ∧
      ∀ obj, some obj ∈ g.Objects → obj.ID ∈ r.map Object.ID := by
  obtain ⟨queue, r, -, -, hc, -, hm, -⟩ := calculateNodeOrder_spec g keyOrder
  refine ⟨_, hc, ?_, ?_⟩
  · intro x hx
    rcases List.mem_append.1 hx with h | h
    · exact hm x h
    · exact List.reduceOption_mem_iff.1 (List.mem_filter.1 h).1
  · intro obj hobj
    rw [List.map_append, List.mem_append]
    by_cases h : obj.ID ∈ r.map Object.ID
    · exact Or.inl h
    · right
      exact List.mem_map.2 ⟨obj, List.mem_filter.2
        ⟨List.reduceOption_mem_iff.2 hobj, by simpa using h⟩, rfl⟩

/-- The layout map of a graph has, for every non-nil object, an entry, and the
entry is the box computed in the pass of an object of the graph with the same
ID (the object itself when IDs are pairwise different). -/
theorem calculateNodeLayout_entry (g : Graph) (keyOrder : List String) (obj : Object)
    (hobj : some obj ∈ g.Objects) :
    ∃ lay box o k, calculateNodeLayout g keyOrder = some lay ∧ lay obj.ID = some box ∧
      some o ∈ g.Objects ∧ o.ID = obj.ID ∧ (o = obj ∨ ¬ (nodeIDs g).Nodup) ∧
      box = nodeBox o k := by
  obtain ⟨r, hr, hm, hcov⟩ := calculateNodeOrder_cover g keyOrder
  have hlen : ¬ g.Objects.length = 0 := by
    intro h
    rw [List.length_eq_zero.1 h] at hobj
    simp at hobj
  obtain ⟨box, hbox⟩ := placeNodes_layout_isSome (hcov obj hobj)
  obtain ⟨o, ho, k, h1, h2⟩ := placeNodes_layout_some hbox
  refine ⟨(placeNodes r).layout, box, o, k, ?_, hbox, hm o ho, h1, ?_, h2⟩
  · simp [calculateNodeLayout, hlen, hr]
  · by_cases hd : (nodeIDs g).Nodup
    · left
      exact List.inj_on_of_nodup_map hd (List.reduceOption_mem_iff.2 (hm o ho))
        (List.reduceOption_mem_iff.2 hobj) h1
    · exact Or.inr hd

theorem layerOf_eq_tierOf (id : String) : layerOf id = tierOf id := by
  unfold layerOf tierOf tierRules
  simp only [List.find?, tierMatches, List.any_cons, List.any_nil, Bool.or_false,
    Bool.or_assoc]
  cases h1 : (HasPrefix id "client_" || (Contains id "browser" || Contains id "mobile"))
  · cases h2 : (HasPrefix id "network_" || (Contains id "cdn" || (Contains id "firewall" ||
        (Contains id "load_balancer" || Contains id "waf"))))
    · cases h3 : (HasPrefix id "application_" || (Contains id "server" || (Contains id "api" ||
          (Contains id "service" || Contains id "auth"))))
      · cases h4 : (HasPrefix id "database_" || (Contains id "db" || (Contains id "cache" ||
            (Contains id "redis" || (Contains id "postgresql" || (Contains id "mysql" ||
              Contains id "mongo"))))))
        · simp
        · simp
      · simp
    · simp
  · simp

theorem layers_fixedY (id : String) :
    (layers (layerOf id)).fixedY = tierOffsetY (layerOf id) := by
  unfold layerOf
  split_ifs <;> decide

theorem widthOf_eq (label : String) :
    widthOf label = max 120 (min 200 ((label.utf8ByteSize : Int) * 8 + 40)) := by
  unfold widthOf
  simp only
  push_cast
  split_ifs <;> omega

theorem labelOf_eq (o : Object) : labelOf o = if o.Label = "" then o.ID else o.Label := by
  unfold labelOf
  by_cases h : o.Label = "" <;> simp [h]

/-! ## Graphs given by a list of nodes and a list of joined pairs -/

theorem processQueue_fuel_unique (out : String → List Object) (f1 f2 : Nat)
    (q : List (Option Object)) (v : List String) (r : List Object)
    (x y : List String × List Object)
    (h1 : processQueue out f1 q v r = some x) (h2 : processQueue out f2 q v r = some y) :
    x = y := by
  have a := processQueue_mono out f1 q v r x h1 f2
  have b := processQueue_mono out f2 q v r y h2 f1
  rw [Nat.add_comm] at b
  rw [a] at b
  exact Option.some.inj b

/-- A run of the queue loop with any amount of fuel that ends gives the result
of `calculateNodeOrder`. -/
theorem calculateNodeOrder_of_run (g : Graph) (keyOrder : List String)
    (queue : List (Option Object)) (fuel : Nat) (v : List String) (r : List Object)
    (hq : startQueue g keyOrder = some queue)
    (hp : processQueue (buildAdjacency g).outgoing fuel queue [] [] = some (v, r)) :
    calculateNodeOrder g keyOrder = some (r ++ remainingUnvisited g.Objects v) := by
  obtain ⟨v1, r1, h1⟩ := processQueue_graph g queue
  have h0 := h1 0
  rw [Nat.add_zero] at h0
  have := processQueue_fuel_unique _ _ _ _ _ _ _ _ hp h0
  rw [← this] at h0
  exact calculateNodeOrder_eq g keyOrder queue v r hq h0

theorem edgeEntry_endsOf (om : String → Option Object) (e : Option Edge) :
    edgeEntry om e =
      edgeEntry om ((endsOf e).map (fun p => { Src := p.1, Dst := p.2, Label := "" })) := by
  cases e with
  | none => rfl
  | some x =>
    obtain ⟨src, dst, lbl⟩ := x
    cases src <;> cases dst <;> rfl

theorem reduceOption_map_some (l : List Object) : (l.map some).reduceOption = l := by
  induction l with
  | nil => rfl
  | cons a l ih => rw [List.map_cons, List.reduceOption_cons_of_some, ih]

/-- The maps of a graph whose objects are the nodes `nodes` in some order and
whose edges join the pairs `pairs` in some order. -/
theorem joined_graph (g : Graph) (nodes : List Object) (pairs : List (Object × Object))
    (hd : (nodes.map Object.ID).Nodup)
    (hobjs : g.Objects.Perm (nodes.map some))
    (hpairs : ∀ p ∈ pairs, p.1 ∈ nodes ∧ p.2 ∈ nodes)
    (hedges : (g.Edges.map endsOf).Perm (joins pairs)) :
    (nodeIDs g).Perm (nodes.map Object.ID) ∧
    (∀ n ∈ nodes, (buildAdjacency g).objMap n.ID = some n) ∧
    (∀ id, ((buildAdjacency g).outgoing id).Perm
      ((pairs.filter (fun p => p.1.ID = id)).map (fun p => p.2))) ∧
    (∀ id ∈ nodes.map Object.ID, (buildAdjacency g).incoming id =
      some ((pairs.filter (fun p => p.2.ID = id)).length)) := by
  have hred : g.Objects.reduceOption.Perm nodes := by
    have := hobjs.filterMap id
    rw [← reduceOption_map_some nodes]
    exact this
  have hids : (nodeIDs g).Perm (nodes.map Object.ID) := hred.map _
  have hnd : (nodeIDs g).Nodup := hids.nodup_iff.2 hd
  have hom : ∀ n ∈ nodes, (initMaps g.Objects).objMap n.ID = some n := by
    intro n hn
    exact initMaps_objMap_self hnd (List.reduceOption_mem_iff.1 (hred.mem_iff.2 hn))
  have hent : (entries g).Perm (pairs.map (fun p => (p.1.ID, p.2.ID, p.2))) := by
    have h1 : entries g = (g.Edges.map endsOf).filterMap (fun x =>
        edgeEntry (initMaps g.Objects).objMap
          (x.map (fun p => { Src := p.1, Dst := p.2, Label := "" }))) := by
      unfold entries
      rw [List.filterMap_map]
      apply List.filterMap_congr
      intro e _
      exact edgeEntry_endsOf _ e
    rw [h1]
    refine (hedges.filterMap _).trans ?_
    unfold joins
    rw [List.filterMap_map]
    have h2 : ∀ (l : List (Object × Object)), (∀ p ∈ l, p.1 ∈ nodes ∧ p.2 ∈ nodes) →
        l.filterMap ((fun x => edgeEntry (initMaps g.Objects).objMap
          (x.map (fun p => { Src := p.1, Dst := p.2, Label := "" }))) ∘
            (fun p => some (some p.1, some p.2))) =
        l.map (fun p => (p.1.ID, p.2.ID, p.2)) := by
      intro l
      induction l with
      | nil => intro _; rfl
      | cons a l ih =>
        intro hl
        have ha := hl a (List.mem_cons_self _ _)
        rw [List.filterMap_cons, ih (fun p hp => hl p (List.mem_cons_of_mem _ hp))]
        simp [edgeEntry, hom a.1 ha.1, hom a.2 ha.2]
    rw [h2 pairs hpairs]
  refine ⟨hids, ?_, ?_, ?_⟩
  · intro n hn
    rw [buildAdjacency_objMap]
    exact hom n hn
  · intro id
    rw [buildAdjacency_outgoing]
    have := ((hent.filter (fun t => t.1 = id)).map (fun t => t.2.2))
    refine this.trans ?_
    rw [List.filter_map, List.map_map]
    exact List.Perm.refl _
  · intro id hid
    rw [buildAdjacency_incoming, if_pos (hids.mem_iff.2 hid)]
    congr 1
    rw [(hent.filter (fun t => t.2.1 = id)).length_eq, List.filter_map, List.length_map]
    rfl

theorem filterMap_single {β : Type} (f : String → Option β) (l : List String) (a : String)
    (b : β) (hnd : l.Nodup) (ha : a ∈ l) (hfa : f a = some b)
    (hf : ∀ x ∈ l, x ≠ a → f x = none) : l.filterMap f = [b] := by
  induction l with
  | nil => simp at ha
  | cons x l ih =>
    rw [List.nodup_cons] at hnd
    by_cases hx : x = a
    · subst hx
      rw [List.filterMap_cons_some hfa]
      congr 1
      apply List.filterMap_eq_nil_iff.2
      intro y hy
      exact hf y (List.mem_cons_of_mem _ hy) (fun h => hnd.1 (h ▸ hy))
    · rw [List.filterMap_cons_none (hf x (List.mem_cons_self _ _) hx)]
      have ha2 : a ∈ l := by
        rcases List.mem_cons.1 ha with h | h
        · exact absurd h.symm hx
        · exact h
      exact ih hnd.2 ha2 (fun y hy => hf y (List.mem_cons_of_mem _ hy))

/-- When exactly one node has in-degree zero, the start queue holds that node,
whatever the iteration order of the map. -/
theorem startQueue_single_root (g : Graph) (keyOrder : List String) (root : Object)
    (hko : RangeOrder g keyOrder)
    (hroot : root.ID ∈ nodeIDs g)
    (hom : (buildAdjacency g).objMap root.ID = some root)
    (hin0 : (buildAdjacency g).incoming root.ID = some 0)
    (hin : ∀ id ∈ nodeIDs g, id ≠ root.ID → ∃ k, (buildAdjacency g).incoming id = some (k + 1)) :
    startQueue g keyOrder = some [some root] := by
  have hkeys : ∀ id, id ∈ keyOrder ↔ id ∈ nodeIDs g := by
    intro id
    unfold RangeOrder at hko
    rw [hko.mem_iff, buildAdjacency_keys, initMaps_mem_keys]
    rfl
  have hnd : keyOrder.Nodup := by
    unfold RangeOrder at hko
    rw [hko.nodup_iff, buildAdjacency_keys]
    exact initMaps_keys_nodup _
  have hseed : seedQueue (buildAdjacency g) keyOrder = [some root] := by
    rw [seedQueue_eq]
    apply filterMap_single _ _ root.ID _ hnd ((hkeys _).2 hroot)
    · simp [seedOf, hin0, hom]
    · intro x hx hxr
      obtain ⟨k, hk⟩ := hin x ((hkeys x).1 hx) hxr
      simp [seedOf, hk]
  unfold startQueue
  simp [hseed]

theorem ChainOut_of_perm (out out1 : String → List Object) :
    ∀ l : List Object, (∀ x ∈ l, (out x.ID).Perm (out1 x.ID)) → ChainOut out1 l → ChainOut out l
  | [], _, _ => trivial
  | [c], h, hc => by
    unfold ChainOut at hc ⊢
    have := h c (List.mem_cons_self _ _)
    rw [hc] at this
    exact List.perm_nil.1 this
  | c :: d :: rest, h, hc => by
    unfold ChainOut at hc ⊢
    refine ⟨?_, ChainOut_of_perm out out1 (d :: rest)
      (fun x hx => h x (List.mem_cons_of_mem _ hx)) hc.2⟩
    have := h c (List.mem_cons_self _ _)
    rw [hc.1] at this
    exact List.perm_singleton.1 this

/-- The successor map read off the consecutive pairs of a list of nodes with
pairwise different IDs is a chain along the list. -/
theorem ChainOut_zip_tail : ∀ (l : List Object), (l.map Object.ID).Nodup →
    ChainOut (fun id => ((l.zip l.tail).filter (fun p => p.1.ID = id)).map (fun p => p.2)) l
  | [], _ => trivial
  | [c], _ => by simp [ChainOut]
  | c :: d :: rest, hnd => by
    have hnd2 : ((d :: rest).map Object.ID).Nodup := (List.nodup_cons.1 hnd).2
    have hc : c.ID ∉ (d :: rest).map Object.ID := (List.nodup_cons.1 hnd).1
    have hsrc : ∀ p ∈ (d :: rest).zip rest, p.1.ID ≠ c.ID := by
      intro p hp hpc
      have := (List.of_mem_zip hp).1
      exact hc (List.mem_map.2 ⟨p.1, this, hpc⟩)
    unfold ChainOut
    constructor
    · simp only [List.tail_cons, List.zip_cons_cons]
      rw [List.filter_cons_of_pos (by simp)]
      rw [List.filter_eq_nil_iff.2 (fun p hp => by simpa using hsrc p hp)]
      rfl
    · apply ChainOut_of_perm _ _ _ _ (ChainOut_zip_tail (d :: rest) hnd2)
      intro x hx
      have hxc : ¬ c.ID = x.ID := fun h => hc (List.mem_map.2 ⟨x, hx, h.symm⟩)
      simp only [List.tail_cons, List.zip_cons_cons]
      rw [List.filter_cons_of_neg (by simpa using hxc)]

/-- The queue loop started on the head of a chain, with none of the chain
visited, appends the chain. -/
theorem processQueue_chain (out : String → List Object) :
    ∀ (l : List Object) (c : Object) (v : List String) (r : List Object),
      ChainOut out (c :: l) → ((c :: l).map Object.ID).Nodup →
      (∀ x ∈ c :: l, x.ID ∉ v) →
      processQueue out (l.length + 1) [some c] v r =
        some (((c :: l).map Object.ID).reverse ++ v, r ++ c :: l)
  | [], c, v, r, hch, _, hv => by
    unfold ChainOut at hch
    rw [processQueue_fresh_cons _ _ _ _ _ _ (hv c (List.mem_cons_self _ _)), hch]
    simp [processQueue_nil]
  | d :: rest, c, v, r, hch, hnd, hv => by
    unfold ChainOut at hch
    have hcv := hv c (List.mem_cons_self _ _)
    have hdc : d.ID ≠ c.ID := by
      intro h
      have := (List.nodup_cons.1 hnd).1
      exact this (by simp [h])
    have hdv : d.ID ∉ v := hv d (by simp)
    rw [List.length_cons, processQueue_fresh_cons _ _ _ _ _ _ hcv, hch.1]
    rw [List.filter_cons_of_pos (by simp [hdc, hdv])]
    simp only [List.filter_nil, List.map_cons, List.map_nil, List.nil_append]
    have ih := processQueue_chain out rest d (c.ID :: v) (r ++ [c]) hch.2
      (List.nodup_cons.1 hnd).2 (by
        intro x hx hxv
        rcases List.mem_cons.1 hxv with h | h
        · exact (List.nodup_cons.1 hnd).1 (List.mem_map.2 ⟨x, hx, h⟩)
        · exact hv x (List.mem_cons_of_mem _ hx) h)
    rw [ih]
    simp

theorem perm_pair_cases {x y : Object} {l : List Object} (hxy : x ≠ y) (h : l.Perm [x, y]) :
    l = [x, y] ∨ l = [y, x] := by
  obtain ⟨a, b, rfl⟩ := List.length_eq_two.1 (h.length_eq)
  have ha : a ∈ [x, y] := h.mem_iff.1 (by simp)
  have hb : b ∈ [x, y] := h.mem_iff.1 (by simp)
  have hnd : [a, b].Nodup := h.nodup_iff.2 (by simp [hxy])
  have hab : a ≠ b := by simpa using hnd
  simp only [List.mem_cons, List.mem_singleton, List.not_mem_nil, or_false] at ha hb
  rcases ha with ha | ha <;> rcases hb with hb | hb
  · exact absurd (ha.trans hb.symm) hab
  · left; rw [ha, hb]
  · right; rw [ha, hb]
  · exact absurd (ha.trans hb.symm) hab

/-! ## Lane packing -/

theorem foldl_layoutStep_layout_of_not_mem (l : List Object) (s : LayoutState) (id : String)
    (h : id ∉ l.map Object.ID) : (l.foldl layoutStep s).layout id = s.layout id := by
  induction l generalizing s with
  | nil => rfl
  | cons x l ih =>
    rw [List.map_cons, List.mem_cons, not_or] at h
    rw [List.foldl_cons, ih _ h.2]
    simp only [layoutStep]
    rw [if_neg h.1]

/-- The lane counter of a tier is the number of nodes of that tier placed so
far. -/
theorem placeNodes_layerIndexes (l : List Object) (t : String) :
    (placeNodes l).layerIndexes t = (l.filter (fun x => layerOf x.ID = t)).length := by
  induction l using List.reverseRecOn with
  | nil => rfl
  | append_singleton l x ih =>
    rw [placeNodes_snoc, List.filter_append, List.length_append]
    simp only [layoutStep]
    by_cases h : t = layerOf x.ID
    · subst h
      rw [if_pos rfl, ih, List.filter_cons_of_pos (by simp)]
      rfl
    · have h2 : ¬ layerOf x.ID = t := fun e => h e.symm
      rw [if_neg h, ih, List.filter_cons_of_neg (by simpa using h2)]
      rfl

/-- With pairwise different IDs, the entry of a node is the box of its own
pass, computed with the number of earlier nodes of its tier as lane index. -/
theorem placeNodes_at (pre suf : List Object) (o : Object)
    (hnd : ((pre ++ o :: suf).map Object.ID).Nodup) :
    (placeNodes (pre ++ o :: suf)).layout o.ID =
      some (nodeBox o ((pre.filter (fun x => layerOf x.ID = layerOf o.ID)).length)) := by
  have hsplit : pre ++ o :: suf = (pre ++ [o]) ++ suf := by simp
  have hnot : o.ID ∉ suf.map Object.ID := by
    rw [List.map_append, List.map_cons] at hnd
    have := (List.nodup_append.1 hnd).2.1
    exact (List.nodup_cons.1 this).1
  rw [hsplit]
  unfold placeNodes
  rw [List.foldl_append, foldl_layoutStep_layout_of_not_mem _ _ _ hnot]
  change (placeNodes (pre ++ [o])).layout o.ID = _
  rw [placeNodes_snoc]
  simp only [layoutStep, if_true]
  rw [placeNodes_layerIndexes]

theorem layers_baseX (id : String) :
    (layers (layerOf id)).baseX = tierBaseX (layerOf id) := by
  unfold layerOf
  split_ifs <;> decide

theorem layers_spacing (id : String) :
    (layers (layerOf id)).spacing = tierSpacing (layerOf id) := by
  unfold layerOf
  split_ifs <;> decide

theorem tierSpacing_ge (id : String) : 120 ≤ tierSpacing (layerOf id) := by
  unfold layerOf
  split_ifs <;> decide

/-- With pairwise different IDs the returned order has pairwise different
IDs. -/
theorem nodeOrder_nodup_ids (g : Graph) (keyOrder : List String) (hd : (nodeIDs g).Nodup)
    (r : List Object) (hr : calculateNodeOrder g keyOrder = some r) :
    (r.map Object.ID).Nodup := by
  obtain ⟨r1, h1, hp⟩ := nodeOrder_perm g keyOrder hd
  rw [hr] at h1
  cases h1
  exact (hp.map Object.ID).nodup_iff.2 hd

theorem calculateNodeLayout_of_order (g : Graph) (keyOrder : List String) (r : List Object)
    (hne : r ≠ []) (hr : calculateNodeOrder g keyOrder = some r) :
    calculateNodeLayout g keyOrder = some (placeNodes r).layout := by
  have hlen : ¬ g.Objects.length = 0 := by
    intro h
    unfold calculateNodeOrder at hr
    rw [if_pos h] at hr
    exact hne (Option.some.inj hr).symm
  simp [calculateNodeLayout, hlen, hr]

/-! ## The output of `flatten` -/

theorem filterMap_map_eq {α β : Type} (f : α → β) (l : List (Option α)) :
    l.filterMap (fun o => o.map f) = l.reduceOption.map f := by
  induction l with
  | nil => rfl
  | cons a l ih =>
    cases a with
    | none => simpa [List.reduceOption_cons_of_none] using ih
    | some x => simp [List.reduceOption_cons_of_some, ih]

/-- The layout map is always returned, and its keys are the IDs of the non-nil
objects. -/
theorem calculateNodeLayout_keys (g : Graph) (keyOrder : List String) :
    ∃ lay, calculateNodeLayout g keyOrder = some lay ∧
      ∀ id, lay id ≠ none ↔ id ∈ nodeIDs g := by
  by_cases hlen : g.Objects.length = 0
  · refine ⟨fun _ => none, by simp [calculateNodeLayout, hlen], ?_⟩
    intro id
    simp [nodeIDs, List.length_eq_zero.1 hlen]
  · obtain ⟨r, hr, hm, hcov⟩ := calculateNodeOrder_cover g keyOrder
    refine ⟨(placeNodes r).layout, by simp [calculateNodeLayout, hlen, hr], ?_⟩
    intro id
    constructor
    · intro h
      obtain ⟨box, hbox⟩ := Option.ne_none_iff_exists'.1 h
      obtain ⟨o, ho, k, h1, -⟩ := placeNodes_layout_some hbox
      exact List.mem_map.2 ⟨o, List.reduceOption_mem_iff.2 (hm o ho), h1⟩
    · intro h
      obtain ⟨o, ho, rfl⟩ := List.mem_map.1 h
      obtain ⟨box, hbox⟩ := placeNodes_layout_isSome (hcov o (List.reduceOption_mem_iff.1 ho))
      rw [hbox]
      simp

/-- The output of `flatten` in closed form. -/
theorem flatten_eq (g : Graph) (keyOrder : List String) (lay : String → Option NodeLayout)
    (hlay : calculateNodeLayout g keyOrder = some lay) :
    flatten g keyOrder =
      some { Nodes := g.Objects.reduceOption.map (flattenNode lay)
             Edges := g.Edges.reduceOption.map flattenEdge } := by
  unfold flatten
  rw [hlay]
  simp only [filterMap_map_eq]

theorem layers_fixedY_mem (id : String) :
    (layers (layerOf id)).fixedY ∈ [(150 : Int), 250, 350, 450] := by
  unfold layerOf
  split_ifs <;> decide

theorem flattenNode_of_some (lay : String → Option NodeLayout) (n : Object) (box : NodeLayout)
    (h : lay n.ID = some box) :
    flattenNode lay n =
      { ID := n.ID, Label := if n.Label = "" then n.ID else n.Label
        X := if externalX n = 0 ∧ externalY n = 0 then box.X else externalX n
        Y := if externalX n = 0 ∧ externalY n = 0 then box.Y else externalY n
        W := if n.Width = 0 then box.Width else n.Width
        H := if n.Height = 0 then box.Height else n.Height } := by
  unfold flattenNode externalX externalY
  simp only [h]
  by_cases hl : n.Label = "" <;> simp [hl]

theorem flattenNode_ID (lay : String → Option NodeLayout) (n : Object) :
    (flattenNode lay n).ID = n.ID := by
  unfold flattenNode
  cases h : lay n.ID <;> simp [h]

theorem split_two {l : List Object} {a b : Object} (ha : a ∈ l) (hb : b ∈ l) (hab : a ≠ b) :
    ∃ pre mid suf, l = pre ++ a :: (mid ++ b :: suf) ∨ l = pre ++ b :: (mid ++ a :: suf) := by
  obtain ⟨s, t, rfl⟩ := List.append_of_mem ha
  rcases List.mem_append.1 hb with h | h
  · obtain ⟨s1, s2, rfl⟩ := List.append_of_mem h
    exact ⟨s1, s2, t, Or.inr (by simp)⟩
  · rcases List.mem_cons.1 h with h | h
    · exact absurd h.symm hab
    · obtain ⟨t1, t2, rfl⟩ := List.append_of_mem h
      exact ⟨s, t1, t2, Or.inl rfl⟩

/-- Two nodes of one tier, the first placed before the second, sit at least
the tier's spacing apart. -/
theorem placeNodes_same_tier (pre mid suf : List Object) (a b : Object)
    (hnd : ((pre ++ a :: (mid ++ b :: suf)).map Object.ID).Nodup)
    (ht : layerOf a.ID = layerOf b.ID) :
    ∃ ka kb : Nat,
      (placeNodes (pre ++ a :: (mid ++ b :: suf))).layout a.ID = some (nodeBox a ka) ∧
      (placeNodes (pre ++ a :: (mid ++ b :: suf))).layout b.ID = some (nodeBox b kb) ∧
      (nodeBox a ka).Y = (nodeBox b kb).Y ∧
      (nodeBox a ka).X + tierSpacing (layerOf a.ID) ≤ (nodeBox b kb).X := by
  have h1 := placeNodes_at pre (mid ++ b :: suf) a hnd
  have hre : pre ++ a :: (mid ++ b :: suf) = (pre ++ a :: mid) ++ b :: suf := by simp
  have h2 := placeNodes_at (pre ++ a :: mid) suf b (by rw [← hre]; exact hnd)
  rw [← hre] at h2
  refine ⟨_, _, h1, h2, ?_, ?_⟩
  · simp only [nodeBox, ht]
  · simp only [nodeBox]
    rw [← ht, List.filter_append, List.length_append, List.filter_cons_of_pos (by simp),
      List.length_cons, layers_spacing]
    have hs := tierSpacing_ge a.ID
    have hm : (0 : Int) ≤ ((mid.filter (fun x => layerOf x.ID = layerOf a.ID)).length : Int) *
        tierSpacing (layerOf a.ID) := mul_nonneg (Int.ofNat_nonneg _) (by omega)
    push_cast
    nlinarith

theorem flatten_node_ids (lay : String → Option NodeLayout) (objs : List Object) :
    (objs.map (flattenNode lay)).map jNode.ID = objs.map Object.ID := by
  rw [List.map_map]
  apply List.map_congr_left
  intro o _
  exact flattenNode_ID lay o

/-! ## Edges that do not count -/

theorem validEnds_objects (g : Graph) (es : List (Option Edge)) (e : Option Edge) :
    validEnds { Objects := g.Objects, Edges := es } e = validEnds g e := rfl

theorem edgeEntry_of_not_valid (objs : List (Option Object)) (e : Option Edge)
    (h : validEdge objs e = false) : edgeEntry (initMaps objs).objMap e = none := by
  have := edgeEntry_eq_validEnds { Objects := objs, Edges := [] } e
  unfold validEdge at h
  cases hv : validEnds { Objects := objs, Edges := [] } e with
  | none =>
    rw [hv] at this
    exact this
  | some p => rw [hv] at h; simp at h

theorem entries_filter_valid (objs : List (Option Object)) (es : List (Option Edge)) :
    entries { Objects := objs, Edges := es.filter (validEdge objs) } =
      entries { Objects := objs, Edges := es } := by
  unfold entries
  simp only
  rw [List.filterMap_filter]
  apply List.filterMap_congr
  intro e _
  by_cases h : validEdge objs e = true
  · simp [h]
  · have h2 : validEdge objs e = false := by simpa using h
    simp [h2, edgeEntry_of_not_valid objs e h2]

/-- The result of `calculateNodeOrder` depends on the edge list only through
its adjacency entries. -/
theorem calculateNodeOrder_congr (g1 g2 : Graph) (keyOrder : List String)
    (hobj : g1.Objects = g2.Objects) (hent : entries g1 = entries g2) :
    calculateNodeOrder g1 keyOrder = calculateNodeOrder g2 keyOrder := by
  have hids : nodeIDs g1 = nodeIDs g2 := by unfold nodeIDs; rw [hobj]
  have hout : (buildAdjacency g1).outgoing = (buildAdjacency g2).outgoing := by
    funext id
    rw [buildAdjacency_outgoing, buildAdjacency_outgoing, hent]
  have hinc : (buildAdjacency g1).incoming = (buildAdjacency g2).incoming := by
    funext id
    rw [buildAdjacency_incoming, buildAdjacency_incoming, hent, hids]
  have hom : (buildAdjacency g1).objMap = (buildAdjacency g2).objMap := by
    rw [buildAdjacency_objMap, buildAdjacency_objMap, hobj]
  have hseed : seedQueue (buildAdjacency g1) keyOrder = seedQueue (buildAdjacency g2) keyOrder := by
    rw [seedQueue_eq, seedQueue_eq]
    apply List.filterMap_congr
    intro id _
    unfold seedOf
    rw [hinc, hom]
  have hstart : startQueue g1 keyOrder = startQueue g2 keyOrder := by
    unfold startQueue
    rw [hseed, hobj]
  obtain ⟨queue, r, hq, hp, -⟩ := calculateNodeOrder_spec g1 keyOrder
  rw [calculateNodeOrder_of_run g1 keyOrder queue _ _ r hq hp]
  rw [hstart] at hq
  rw [hout] at hp
  rw [calculateNodeOrder_of_run g2 keyOrder queue _ _ r hq hp, hobj]

/-! ## Seeds come first -/

/-- Nodes with pairwise different, unvisited IDs at the front of the queue are
appended first, in queue order. -/
theorem processQueue_front (out : String → List Object) :
    ∀ (S : List Object) (fuel : Nat) (q : List (Option Object)) (v : List String)
      (r : List Object) (v1 : List String) (r1 : List Object),
      (S.map Object.ID).Nodup → (∀ x ∈ S, x.ID ∉ v) →
      processQueue out fuel (S.map some ++ q) v r = some (v1, r1) →
      ∃ extra, r1 = r ++ S ++ extra := by
  intro S
  induction S with
  | nil =>
    intro fuel q v r v1 r1 _ _ h
    obtain ⟨extra, h1, -⟩ := processQueue_spec out fuel _ v r v1 r1 h
    exact ⟨extra, by simp [h1]⟩
  | cons s S ih =>
    intro fuel q v r v1 r1 hnd hv h
    cases fuel with
    | zero => simp [processQueue] at h
    | succ fuel =>
      rw [List.map_cons, List.cons_append,
        processQueue_fresh_cons _ _ _ _ _ _ (hv s (List.mem_cons_self _ _)),
        List.append_assoc] at h
      rw [List.map_cons, List.nodup_cons] at hnd
      obtain ⟨extra, hx⟩ := ih fuel _ _ _ v1 r1 hnd.2 (by
        intro x hx hxv
        rcases List.mem_cons.1 hxv with e | e
        · exact hnd.1 (List.mem_map.2 ⟨x, hx, e⟩)
        · exact hv x (List.mem_cons_of_mem _ hx) e) h
      exact ⟨extra, by simp [hx]⟩

/-- The seeds as a list of nodes: the objects stored under the visited keys of
in-degree zero. -/
theorem seedQueue_nodes (m : Adjacency) (keyOrder : List String)
    (hom : ∀ id o, m.objMap id = some o → o.ID = id) (hnd : keyOrder.Nodup) :
    ∃ S : List Object, seedQueue m keyOrder = S.map some ∧ (S.map Object.ID).Nodup ∧
      (∀ x, x ∈ S ↔ ∃ id ∈ keyOrder, m.incoming id = some 0 ∧ m.objMap id = some x) := by
  rw [seedQueue_eq]
  induction keyOrder with
  | nil => exact ⟨[], by simp⟩
  | cons k ks ih =>
    rw [List.nodup_cons] at hnd
    obtain ⟨S, h1, h2, h3⟩ := ih hnd.2
    cases hs : seedOf m k with
    | none =>
      refine ⟨S, by rw [List.filterMap_cons_none hs, h1], h2, ?_⟩
      intro x
      rw [h3 x]
      constructor
      · rintro ⟨id, hid, h⟩
        exact ⟨id, List.mem_cons_of_mem _ hid, h⟩
      · rintro ⟨id, hid, h4, h5⟩
        rcases List.mem_cons.1 hid with e | e
        · subst e
          simp [seedOf, h4, h5] at hs
        · exact ⟨id, e, h4, h5⟩
    | some y =>
      obtain ⟨h4, obj, h5, h6⟩ := seedOf_some hs
      subst h5
      have hid : obj.ID = k := hom k obj h6
      refine ⟨obj :: S, by rw [List.filterMap_cons_some hs, h1]; rfl, ?_, ?_⟩
      · rw [List.map_cons, List.nodup_cons]
        refine ⟨?_, h2⟩
        intro hmem
        obtain ⟨x, hx, hxid⟩ := List.mem_map.1 hmem
        obtain ⟨id, hidks, -, h7⟩ := (h3 x).1 hx
        have : id = k := by rw [← hom id x h7, hxid, hid]
        exact hnd.1 (this ▸ hidks)
      · intro x
        rw [List.mem_cons, h3 x]
        constructor
        · rintro (e | ⟨id, hidks, h⟩)
          · exact ⟨k, List.mem_cons_self _ _, h4, by rw [e]; exact h6⟩
          · exact ⟨id, List.mem_cons_of_mem _ hidks, h⟩
        · rintro ⟨id, hidks, h7, h8⟩
          rcases List.mem_cons.1 hidks with e | e
          · subst e
            left
            rw [h6] at h8
            exact (Option.some.inj h8).symm
          · exact Or.inr ⟨id, e, h7, h8⟩

/-- Every box of the returned layout map is the box computed in the pass of an
object of the graph with that ID. -/
theorem calculateNodeLayout_boxes (g : Graph) (keyOrder : List String) :
    ∃ lay, calculateNodeLayout g keyOrder = some lay ∧
      ∀ id b, lay id = some b → ∃ o k, some o ∈ g.Objects ∧ o.ID = id ∧ b = nodeBox o k := by
  by_cases hlen : g.Objects.length = 0
  · exact ⟨fun _ => none, by simp [calculateNodeLayout, hlen], by simp⟩
  · obtain ⟨r, hr, hm, -⟩ := calculateNodeOrder_cover g keyOrder
    refine ⟨(placeNodes r).layout, by simp [calculateNodeLayout, hlen, hr], ?_⟩
    intro id b hb
    obtain ⟨o, ho, k, h1, h2⟩ := placeNodes_layout_some hb
    exact ⟨o, k, hm o ho, h1, h2⟩

theorem nodeBox_size (o : Object) (k : Nat) :
    (nodeBox o k).Height = 50 ∧
      (nodeBox o k).Width = max 120 (min 200
        (((if o.Label = "" then o.ID else o.Label).utf8ByteSize : Int) * 8 + 40)) ∧
      120 ≤ (nodeBox o k).Width ∧ (nodeBox o k).Width ≤ 200 := by
  have hw : (nodeBox o k).Width = max 120 (min 200
      (((if o.Label = "" then o.ID else o.Label).utf8ByteSize : Int) * 8 + 40)) := by
    rw [← labelOf_eq, ← widthOf_eq]
    simp only [nodeBox]
  refine ⟨by simp only [nodeBox], hw, ?_, ?_⟩
  · rw [hw]; exact le_max_left _ _
  · rw [hw]; exact max_le (by norm_num) (min_le_left _ _)

/-! ## Claims -/

/-- C1: for a graph whose object list has no nil entry and no two objects with
the same ID, and for every edge list (and every iteration order of the map),
`calculateNodeOrder` returns a permutation of the object list: it has no
repetition and its members are exactly the input nodes. -/
theorem calculateNodeOrder_permutation (g : Graph) (keyOrder : List String)
    (hnil : ∀ o ∈ g.Objects, o ≠ none) (hd : (nodeIDs g).Nodup) :
    ∃ r, calculateNodeOrder g keyOrder = some r ∧ (r.map some).Perm g.Objects ∧
      r.Nodup ∧ ∀ x, x ∈ r ↔ some x ∈ g.Objects := by
  obtain ⟨r, hr, hp⟩ := nodeOrder_perm g keyOrder hd
  refine ⟨r, hr, ?_, ?_, ?_⟩
  · rw [objects_eq_map_some g hnil]
    exact hp.map _
  · exact hp.nodup_iff.2 (List.Nodup.of_map _ hd)
  · intro x
    rw [hp.mem_iff, List.reduceOption_mem_iff]

theorem calculateNodeOrder_permutation_witness :
    (∀ o ∈ triangle.Objects, o ≠ none) ∧ (nodeIDs triangle).Nodup ∧
      ∃ r, calculateNodeOrder triangle ["c", "a", "b"] = some r ∧
        (r.map some).Perm triangle.Objects ∧ r.Nodup ∧
        ∀ x, x ∈ r ↔ some x ∈ triangle.Objects :=
  ⟨by decide, by decide,
    calculateNodeOrder_permutation triangle ["c", "a", "b"] (by decide) (by decide)⟩

/-- C2 (the code at the failing input): with no edge at all, and the map
`incoming` ranged over in the order b, a, `calculateNodeOrder` returns b before
a although the input lists a before b. -/
theorem calculateNodeOrder_no_edges_reordered :
    twoNodes.Edges = [] ∧ RangeOrder twoNodes ["b", "a"] ∧
      calculateNodeOrder twoNodes ["b", "a"] = some [node "b", node "a"] ∧
      twoNodes.Objects = [some (node "a"), some (node "b")] := by
  decide

/-- C3 (the code at the failing input): on one and the same graph, two
iteration orders of the map `incoming` give two different outputs of `flatten`:
node a is placed at x = 550 under one and at x = 680 under the other. -/
theorem flatten_depends_on_range_order :
    RangeOrder twoNodes ["a", "b"] ∧ RangeOrder twoNodes ["b", "a"] ∧
      flatten twoNodes ["a", "b"] =
        some { Nodes := [⟨"a", "a", 550, 350, 120, 50⟩, ⟨"b", "b", 680, 350, 120, 50⟩]
               Edges := [] } ∧
      flatten twoNodes ["b", "a"] =
        some { Nodes := [⟨"a", "a", 680, 350, 120, 50⟩, ⟨"b", "b", 550, 350, 120, 50⟩]
               Edges := [] } ∧
      flatten twoNodes ["a", "b"] ≠ flatten twoNodes ["b", "a"] := by
  decide

/-- C6 (the code at the failing input): the graph a -> c, a -> b, b -> c is
acyclic, its nodes are non-nil with different IDs and (b, c) is one of its
edges, yet under each of the six iteration orders of the map the result is
a, c, b, where c comes before b. -/
theorem calculateNodeOrder_not_topological :
    Acyclic triangle ∧ (∀ o ∈ triangle.Objects, o ≠ none) ∧ (nodeIDs triangle).Nodup ∧
      (node "b", node "c") ∈ validEdges triangle ∧
      ([["a", "b", "c"], ["a", "c", "b"], ["b", "a", "c"], ["b", "c", "a"], ["c", "a", "b"],
          ["c", "b", "a"]].all (fun keyOrder =>
        decide (RangeOrder triangle keyOrder ∧ calculateNodeOrder triangle keyOrder =
          some [node "a", node "c", node "b"]))) = true ∧
      Before [node "a", node "c", node "b"] (node "c") (node "b") ∧
      ¬ Before [node "a", node "c", node "b"] (node "b") (node "c") := by
  refine ⟨⟨fun id => if id = "a" then 0 else if id = "b" then 1 else 2, by decide⟩,
    by decide, by decide, by decide, by decide, by decide, by decide⟩

/-- C8: `calculateNodeOrder` is total.  For every graph and every iteration
order the start queue is built without an index fault, the queue loop ends
within `len(queue) + len(g.Edges)` passes (more fuel changes nothing), and a
sequence is returned. -/
theorem calculateNodeOrder_total (g : Graph) (keyOrder : List String) :
    ∃ (queue : List (Option Object)) (visited : List String) (result : List Object),
      startQueue g keyOrder = some queue ∧
      (∀ k, processQueue (buildAdjacency g).outgoing (queue.length + g.Edges.length + k)
        queue [] [] = some (visited, result)) ∧
      calculateNodeOrder g keyOrder = some (result ++ remainingUnvisited g.Objects visited) := by
  obtain ⟨queue, hq⟩ := startQueue_isSome g keyOrder
  obtain ⟨v, r, hp⟩ := processQueue_graph g queue
  exact ⟨queue, v, r, hq, hp, calculateNodeOrder_eq g keyOrder queue v r hq (hp 0)⟩

/-- C5: in a graph with at least one non-nil node, pairwise different IDs, and
every node of in-degree at least one among the valid edges, the result of
`calculateNodeOrder` (under every iteration order of the map) contains every
node exactly once and starts with the first node of the input list. -/
theorem calculateNodeOrder_all_cyclic (g : Graph) (keyOrder : List String)
    (hne : g.Objects.reduceOption ≠ []) (hd : (nodeIDs g).Nodup)
    (hdeg : ∀ id ∈ nodeIDs g, 1 ≤ inDegree g id) :
    ∃ r, calculateNodeOrder g keyOrder = some r ∧ r.Perm g.Objects.reduceOption ∧
      r.head? = g.Objects.reduceOption.head? := by
  obtain ⟨r, hr, hperm⟩ := nodeOrder_perm g keyOrder hd
  refine ⟨r, hr, hperm, ?_⟩
  obtain ⟨queue, r0, hq, hp, hc, -, -, -⟩ := calculateNodeOrder_spec g keyOrder
  have hrr : r = r0 ++ g.Objects.reduceOption.filter (fun o => o.ID ∉ r0.map Object.ID) := by
    rw [hr] at hc
    exact Option.some.inj hc
  have hseed : seedQueue (buildAdjacency g) keyOrder = [] := by
    rw [seedQueue_eq]
    apply List.filterMap_eq_nil_iff.2
    intro id _
    exact seedOf_eq_none_of_pos g id (hdeg id)
  cases hobj : g.Objects with
  | nil => simp [hobj] at hne
  | cons first rest =>
    have hq2 : queue = [first] := by
      unfold startQueue at hq
      simp only [hseed, hobj, List.length_nil, List.length_cons, gt_iff_lt, Nat.zero_lt_succ,
        and_self, if_true, List.nil_append, Option.some.injEq] at hq
      exact hq.symm
    subst hq2
    rw [List.length_singleton, Nat.add_comm] at hp
    cases first with
    | none =>
      rw [processQueue_none_cons, processQueue_nil] at hp
      simp only [Option.some.injEq, Prod.mk.injEq] at hp
      have h0 : r0 = [] := hp.2.symm
      rw [hrr, h0]
      simp [hobj]
    | some o =>
      rw [processQueue_fresh_cons _ _ _ _ _ _ (by simp)] at hp
      obtain ⟨extra, h1, -⟩ := processQueue_spec _ _ _ _ _ _ _ hp
      rw [hrr, h1]
      simp [hobj, List.reduceOption_cons_of_some]

theorem calculateNodeOrder_all_cyclic_witness :
    twoCycle.Objects.reduceOption ≠ [] ∧ (nodeIDs twoCycle).Nodup ∧
      (∀ id ∈ nodeIDs twoCycle, 1 ≤ inDegree twoCycle id) ∧
      ∃ r, calculateNodeOrder twoCycle ["b", "a"] = some r ∧
        r.Perm twoCycle.Objects.reduceOption ∧ r.head? = twoCycle.Objects.reduceOption.head? :=
  ⟨by decide, by decide, by decide,
    calculateNodeOrder_all_cyclic twoCycle ["b", "a"] (by decide) (by decide) (by decide)⟩

/-- C9: the tier of a node is decided from its identifier by the first matching
rule of the tier table, in the order client, network, application, database,
else default; the five example identifiers fall in client, database,
application, network and default; and the box of every node of a graph has as
y the vertical offset of the node's tier (150, 250, 350, 450, 350). -/
theorem tier_first_match (g : Graph) (keyOrder : List String) (id : String) (obj : Object)
    (hobj : some obj ∈ g.Objects) :
    layerOf id = tierOf id ∧
      (layerOf "client_app" = "client" ∧ layerOf "db_primary" = "database" ∧
        layerOf "my_service" = "application" ∧ layerOf "edge_waf" = "network" ∧
        layerOf "widget" = "default") ∧
      ∃ lay box, calculateNodeLayout g keyOrder = some lay ∧ lay obj.ID = some box ∧
        box.Y = tierOffsetY (tierOf obj.ID) := by
  refine ⟨layerOf_eq_tierOf id, by decide, ?_⟩
  obtain ⟨lay, box, o, k, h1, h2, -, h4, -, h6⟩ := calculateNodeLayout_entry g keyOrder obj hobj
  refine ⟨lay, box, h1, h2, ?_⟩
  rw [h6, ← layerOf_eq_tierOf, ← h4]
  exact layers_fixedY o.ID

theorem tier_first_match_witness :
    some (node "db_primary") ∈ tiers.Objects ∧
      (layerOf "redis_auth" = tierOf "redis_auth" ∧
        (layerOf "client_app" = "client" ∧ layerOf "db_primary" = "database" ∧
          layerOf "my_service" = "application" ∧ layerOf "edge_waf" = "network" ∧
          layerOf "widget" = "default") ∧
        ∃ lay box, calculateNodeLayout tiers ["widget", "my_service", "db_primary", "client_app",
            "edge_waf"] = some lay ∧ lay (node "db_primary").ID = some box ∧
          box.Y = tierOffsetY (tierOf (node "db_primary").ID)) :=
  ⟨by decide, tier_first_match tiers _ "redis_auth" (node "db_primary") (by decide)⟩

/-- C10 (counterexample): in a graph where the objects `shortQ` (label of 11
bytes) and `longQ` (label of 25 bytes) share the ID `q`, the box that
`calculateNodeLayout` returns for `q` is 200 wide, while `len(label)*8 + 40`
clamped to [120, 200] is 128 for the label of `shortQ`. -/
theorem shared_id_box_width :
    RangeOrder sharedWide ["p", "q"] ∧ some shortQ ∈ sharedWide.Objects ∧
      calculateNodeOrder sharedWide ["p", "q"] = some [node "p", shortQ, longQ] ∧
      (calculateNodeLayout sharedWide ["p", "q"]).map (fun lay => lay shortQ.ID) =
        some (some ⟨810, 350, 200, 50⟩) ∧
      max 120 (min 200
        (((if shortQ.Label = "" then shortQ.ID else shortQ.Label).utf8ByteSize : Int) * 8 + 40)) =
          128 := by
  decide

/-- C10 (amended): for every graph, every box of the map returned by
`calculateNodeLayout` has height 50 and a width in [120, 200], and every node
has a box under its ID; when no other node of the graph shares the node's ID,
the width of that box is `len(label)*8 + 40` clamped to [120, 200], `label`
being the node's display label if non-empty and its identifier otherwise.  The
label "DB" gives 120 and a label of 25 bytes gives 200. -/
theorem calculateNodeLayout_box_size (g : Graph) (keyOrder : List String) :
    ∃ lay, calculateNodeLayout g keyOrder = some lay ∧
      (∀ id b, lay id = some b → b.Height = 50 ∧ 120 ≤ b.Width ∧ b.Width ≤ 200) ∧
      (∀ obj ∈ g.Objects.reduceOption, ∃ box, lay obj.ID = some box ∧
        ((∀ o ∈ g.Objects.reduceOption, o.ID = obj.ID → o = obj) →
          box.Width = max 120 (min 200
            (((if obj.Label = "" then obj.ID else obj.Label).utf8ByteSize : Int) * 8 + 40)))) ∧
      widthOf "DB" = 120 ∧ widthOf "abcdefghijklmnopqrstuvwxy" = 200 := by
  obtain ⟨lay, hlay, hboxes⟩ := calculateNodeLayout_boxes g keyOrder
  obtain ⟨lay2, hlay2, hkeys⟩ := calculateNodeLayout_keys g keyOrder
  rw [hlay] at hlay2
  cases hlay2
  refine ⟨lay, hlay, ?_, ?_, by decide, by decide⟩
  · intro id b hb
    obtain ⟨o, k, -, -, rfl⟩ := hboxes id b hb
    exact ⟨(nodeBox_size o k).1, (nodeBox_size o k).2.2.1, (nodeBox_size o k).2.2.2⟩
  · intro obj hobj
    obtain ⟨box, hbox⟩ := Option.ne_none_iff_exists'.1
      ((hkeys obj.ID).2 (List.mem_map.2 ⟨obj, hobj, rfl⟩))
    refine ⟨box, hbox, ?_⟩
    intro huniq
    obtain ⟨o, k, ho, hoid, rfl⟩ := hboxes obj.ID box hbox
    have : o = obj := huniq o (List.reduceOption_mem_iff.2 ho) hoid
    subst this
    exact (nodeBox_size o k).2.1

theorem calculateNodeLayout_box_size_witness :
    (∀ o ∈ labelled.Objects.reduceOption, o.ID = "store" →
        o = { ID := "store", Label := "DB", TopLeft := none, Width := 0, Height := 0 }) ∧
      ∃ lay box, calculateNodeLayout labelled ["long", "store"] = some lay ∧
        lay "store" = some box ∧ box.Height = 50 ∧ 120 ≤ box.Width ∧ box.Width ≤ 200 ∧
        box.Width = max 120 (min 200 ((("DB" : String).utf8ByteSize : Int) * 8 + 40)) := by
  refine ⟨by decide, ?_⟩
  obtain ⟨lay, h1, h2, h3, -⟩ := calculateNodeLayout_box_size labelled ["long", "store"]
  obtain ⟨box, h4, h5⟩ := h3
    { ID := "store", Label := "DB", TopLeft := none, Width := 0, Height := 0 } (by decide)
  have h6 := h2 _ _ h4
  exact ⟨lay, box, h1, h4, h6.1, h6.2.1, h6.2.2, h5 (by decide)⟩

/-- C4: for a pure chain n1 -> n2 -> ... -> nk over k >= 1 non-nil nodes with
pairwise different IDs, the edges being exactly the pairs (ni, ni+1), in
whatever order the nodes and the edges are listed (and whatever the iteration
order of the map), `calculateNodeOrder` returns n1, n2, ..., nk. -/
theorem calculateNodeOrder_chain (g : Graph) (keyOrder : List String) (chain : List Object)
    (hk : chain ≠ []) (hd : (chain.map Object.ID).Nodup)
    (hobjs : g.Objects.Perm (chain.map some))
    (hedges : (g.Edges.map endsOf).Perm (joins (chain.zip chain.tail)))
    (hko : RangeOrder g keyOrder) :
    calculateNodeOrder g keyOrder = some chain := by
  obtain ⟨hids, hom, hout, hinc⟩ := joined_graph g chain (chain.zip chain.tail) hd hobjs
    (fun p hp => ⟨(List.of_mem_zip hp).1, List.mem_of_mem_tail (List.of_mem_zip hp).2⟩) hedges
  cases chain with
  | nil => exact absurd rfl hk
  | cons c l =>
    have hcl : c.ID ∉ l.map Object.ID := (List.nodup_cons.1 hd).1
    have hch : ChainOut (buildAdjacency g).outgoing (c :: l) :=
      ChainOut_of_perm _ _ _ (fun x _ => hout x.ID) (ChainOut_zip_tail (c :: l) hd)
    have hsnd : ((c :: l).zip l).map Prod.snd = l := List.map_snd_zip _ _ (by simp)
    have hq : startQueue g keyOrder = some [some c] := by
      apply startQueue_single_root g keyOrder c hko
      · exact hids.mem_iff.2 (by simp)
      · exact hom c (List.mem_cons_self _ _)
      · rw [hinc c.ID (by simp)]
        congr 1
        rw [List.length_eq_zero, List.filter_eq_nil_iff]
        intro p hp
        have h2 : p.2 ∈ l := (List.of_mem_zip hp).2
        simp only [decide_eq_true_eq]
        exact fun h => hcl (List.mem_map.2 ⟨p.2, h2, h⟩)
      · intro id hid hne
        have hid2 : id ∈ (c :: l).map Object.ID := hids.mem_iff.1 hid
        rw [hinc id hid2]
        obtain ⟨x, hx, hxid⟩ := List.mem_map.1 hid2
        have hxl : x ∈ l := by
          rcases List.mem_cons.1 hx with h | h
          · exact absurd (by rw [← hxid, h]) hne
          · exact h
        rw [← hsnd] at hxl
        obtain ⟨p, hp, hpx⟩ := List.mem_map.1 hxl
        have hpos : 0 < (((c :: l).zip (c :: l).tail).filter (fun p => p.2.ID = id)).length := by
          apply List.length_pos_of_mem (a := p)
          rw [List.mem_filter]
          refine ⟨hp, ?_⟩
          simp only [decide_eq_true_eq]
          rw [hpx, hxid]
        obtain ⟨k, hk2⟩ := Nat.exists_eq_succ_of_ne_zero (Nat.pos_iff_ne_zero.1 hpos)
        exact ⟨k, by rw [hk2]⟩
    have hrun := processQueue_chain (buildAdjacency g).outgoing l c [] [] hch hd (by simp)
    rw [calculateNodeOrder_of_run g keyOrder _ _ _ _ hq hrun, remainingUnvisited_eq]
    have hempty : g.Objects.reduceOption.filter
        (fun o => o.ID ∉ ((c :: l).map Object.ID).reverse ++ []) = [] := by
      rw [List.filter_eq_nil_iff]
      intro o ho
      have : o.ID ∈ ((c :: l).map Object.ID).reverse ++ [] := by
        rw [List.append_nil, List.mem_reverse]
        exact hids.mem_iff.1 (List.mem_map.2 ⟨o, ho, rfl⟩)
      simp only [this, not_true_eq_false, decide_False, Bool.false_eq_true, not_false_eq_true]
    rw [hempty]
    simp

theorem calculateNodeOrder_chain_witness :
    [node "a", node "b", node "c"] ≠ [] ∧
      ([node "a", node "b", node "c"].map Object.ID).Nodup ∧
      scrambledChain.Objects.Perm ([node "a", node "b", node "c"].map some) ∧
      (scrambledChain.Edges.map endsOf).Perm
        (joins ([node "a", node "b", node "c"].zip [node "a", node "b", node "c"].tail)) ∧
      RangeOrder scrambledChain ["b", "c", "a"] ∧
      calculateNodeOrder scrambledChain ["b", "c", "a"] =
        some [node "a", node "b", node "c"] :=
  ⟨by decide, by decide, by decide, by decide, by decide,
    calculateNodeOrder_chain scrambledChain ["b", "c", "a"] [node "a", node "b", node "c"]
      (by decide) (by decide) (by decide) (by decide) (by decide)⟩

/-- C7: for the diamond A -> B, A -> C, B -> D, C -> D on four nodes with
pairwise different IDs, in whatever order the nodes and the edges are listed
(and whatever the iteration order of the map), `calculateNodeOrder` returns a
sequence in which A precedes B and C, and B and C precede D. -/
theorem calculateNodeOrder_diamond (g : Graph) (keyOrder : List String) (A B C D : Object)
    (hd : ([A, B, C, D].map Object.ID).Nodup)
    (hobjs : g.Objects.Perm ([A, B, C, D].map some))
    (hedges : (g.Edges.map endsOf).Perm (joins [(A, B), (A, C), (B, D), (C, D)]))
    (hko : RangeOrder g keyOrder) :
    ∃ r, calculateNodeOrder g keyOrder = some r ∧
      Before r A B ∧ Before r A C ∧ Before r B D ∧ Before r C D := by
  obtain ⟨hids, hom, hout, hinc⟩ := joined_graph g [A, B, C, D]
    [(A, B), (A, C), (B, D), (C, D)] hd hobjs (by simp) hedges
  simp only [List.map_cons, List.map_nil, List.nodup_cons, List.mem_cons, List.mem_singleton,
    List.not_mem_nil, or_false, not_or, List.nodup_nil, and_true, not_false_eq_true] at hd
  obtain ⟨⟨hAB, hAC, hAD⟩, ⟨hBC, hBD⟩, hCD⟩ := hd
  have hBA : ¬ B.ID = A.ID := fun h => hAB h.symm
  have hCA : ¬ C.ID = A.ID := fun h => hAC h.symm
  have hDA : ¬ D.ID = A.ID := fun h => hAD h.symm
  have hCB : ¬ C.ID = B.ID := fun h => hBC h.symm
  have hDB : ¬ D.ID = B.ID := fun h => hBD h.symm
  have hDC : ¬ D.ID = C.ID := fun h => hCD h.symm
  have oAB : A ≠ B := fun h => hAB (by rw [h])
  have oAC : A ≠ C := fun h => hAC (by rw [h])
  have oAD : A ≠ D := fun h => hAD (by rw [h])
  have oBC : B ≠ C := fun h => hBC (by rw [h])
  have oBD : B ≠ D := fun h => hBD (by rw [h])
  have oCD : C ≠ D := fun h => hCD (by rw [h])
  have outA := hout A.ID
  have outB := hout B.ID
  have outC := hout C.ID
  have outD := hout D.ID
  simp only [List.filter_cons, List.filter_nil, hBA, hCA, hDA, hAB, hAC, hAD, hBC, hCB, hBD,
    hDB, hCD, hDC, decide_True, decide_False, if_true, if_false, List.map_cons, List.map_nil,
    Bool.false_eq_true] at outA outB outC outD
  have outB := List.perm_singleton.1 outB
  have outC := List.perm_singleton.1 outC
  have outD := List.perm_nil.1 outD
  have hq : startQueue g keyOrder = some [some A] := by
    apply startQueue_single_root g keyOrder A hko
    · exact hids.mem_iff.2 (by simp)
    · exact hom A (by simp)
    · rw [hinc A.ID (by simp)]
      simp [List.filter_cons, hBA, hCA, hDA]
    · intro id hid hne
      have hid2 := hids.mem_iff.1 hid
      rw [hinc id hid2]
      simp only [List.map_cons, List.map_nil, List.mem_cons, List.mem_singleton,
        List.not_mem_nil, or_false] at hid2
      rcases hid2 with h | h | h | h
      · exact absurd h hne
      · subst h
        exact ⟨0, by simp [List.filter_cons, hCB, hDB]⟩
      · subst h
        exact ⟨0, by simp [List.filter_cons, hBC, hDC]⟩
      · subst h
        exact ⟨1, by simp [List.filter_cons, hBD, hCD]⟩
  have hrem : ∀ v : List String, A.ID ∈ v → B.ID ∈ v → C.ID ∈ v → D.ID ∈ v →
      remainingUnvisited g.Objects v = [] := by
    intro v hA hB hC hD
    rw [remainingUnvisited_eq, List.filter_eq_nil_iff]
    intro o ho
    have : o.ID ∈ [A, B, C, D].map Object.ID := hids.mem_iff.1 (List.mem_map.2 ⟨o, ho, rfl⟩)
    simp only [List.map_cons, List.map_nil, List.mem_cons, List.mem_singleton,
      List.not_mem_nil, or_false] at this
    rcases this with h | h | h | h <;> simp [h, hA, hB, hC, hD]
  rcases perm_pair_cases oBC outA with outA | outA
  · have hrun : processQueue (buildAdjacency g).outgoing 5 [some A] [] [] =
        some ([D.ID, C.ID, B.ID, A.ID], [A, B, C, D]) := by
      simp [processQueue, outA, outB, outC, outD, hBA, hCA, hDA, hAB, hAC, hAD, hBC, hCB, hBD,
        hDB, hCD, hDC]
    refine ⟨[A, B, C, D], ?_, ?_⟩
    · rw [calculateNodeOrder_of_run g keyOrder _ _ _ _ hq hrun, hrem _ (by simp) (by simp)
        (by simp) (by simp)]
      simp
    · simp [Before, List.indexOf_cons, oAB, oAC, oAD, oBC, oBD, oCD, oAB.symm, oAC.symm,
        oAD.symm, oBC.symm, oBD.symm, oCD.symm]
  · have hrun : processQueue (buildAdjacency g).outgoing 5 [some A] [] [] =
        some ([D.ID, B.ID, C.ID, A.ID], [A, C, B, D]) := by
      simp [processQueue, outA, outB, outC, outD, hBA, hCA, hDA, hAB, hAC, hAD, hBC, hCB, hBD,
        hDB, hCD, hDC]
    refine ⟨[A, C, B, D], ?_, ?_⟩
    · rw [calculateNodeOrder_of_run g keyOrder _ _ _ _ hq hrun, hrem _ (by simp) (by simp)
        (by simp) (by simp)]
      simp
    · simp [Before, List.indexOf_cons, oAB, oAC, oAD, oBC, oBD, oCD, oAB.symm, oAC.symm,
        oAD.symm, oBC.symm, oBD.symm, oCD.symm]

theorem calculateNodeOrder_diamond_witness :
    ([node "a", node "b", node "c", node "d"].map Object.ID).Nodup ∧
      scrambledDiamond.Objects.Perm ([node "a", node "b", node "c", node "d"].map some) ∧
      (scrambledDiamond.Edges.map endsOf).Perm
        (joins [(node "a", node "b"), (node "a", node "c"), (node "b", node "d"),
          (node "c", node "d")]) ∧
      RangeOrder scrambledDiamond ["b", "d", "a", "c"] ∧
      ∃ r, calculateNodeOrder scrambledDiamond ["b", "d", "a", "c"] = some r ∧
        Before r (node "a") (node "b") ∧ Before r (node "a") (node "c") ∧
        Before r (node "b") (node "d") ∧ Before r (node "c") (node "d") :=
  ⟨by decide, by decide, by decide, by decide,
    calculateNodeOrder_diamond scrambledDiamond ["b", "d", "a", "c"] (node "a") (node "b")
      (node "c") (node "d") (by decide) (by decide) (by decide) (by decide)⟩

/-- C11: in a graph with pairwise different IDs, a node that has k nodes of its
tier before it in the sequence returned by `calculateNodeOrder` is placed at
x = baseX + k * spacing of its tier (client 50/150, network 300/120,
application 550/130, database 950/140, default 550/130) and at the tier's y;
placing it moves the tier's lane counter from k to k + 1, so no lane index is
used twice; three database nodes in a row get x = 950, 1090, 1230 at y = 450. -/
theorem lane_packing (g : Graph) (keyOrder : List String) (pre suf : List Object) (o : Object)
    (hd : (nodeIDs g).Nodup)
    (horder : calculateNodeOrder g keyOrder = some (pre ++ o :: suf)) :
    ∃ lay box, calculateNodeLayout g keyOrder = some lay ∧ lay o.ID = some box ∧
      box.X = tierBaseX (tierOf o.ID) +
        ((pre.filter (fun x => tierOf x.ID = tierOf o.ID)).length : Int) *
          tierSpacing (tierOf o.ID) ∧
      box.Y = tierOffsetY (tierOf o.ID) ∧
      (placeNodes pre).layerIndexes (layerOf o.ID) =
        (pre.filter (fun x => tierOf x.ID = tierOf o.ID)).length ∧
      (placeNodes (pre ++ [o])).layerIndexes (layerOf o.ID) =
        (pre.filter (fun x => tierOf x.ID = tierOf o.ID)).length + 1 ∧
      (calculateNodeLayout threeDatabases ["db3", "db1", "db2"]).map
          (fun lay => [lay "db1", lay "db2", lay "db3"]) =
        some [some ⟨950, 450, 120, 50⟩, some ⟨1090, 450, 120, 50⟩, some ⟨1230, 450, 120, 50⟩] := by
  have hnd := nodeOrder_nodup_ids g keyOrder hd _ horder
  have hcount : (pre.filter (fun x => tierOf x.ID = tierOf o.ID)) =
      (pre.filter (fun x => layerOf x.ID = layerOf o.ID)) := by
    apply List.filter_congr
    intro x _
    rw [layerOf_eq_tierOf, layerOf_eq_tierOf]
  refine ⟨_, _, calculateNodeLayout_of_order g keyOrder _ (by simp) horder,
    placeNodes_at pre suf o hnd, ?_, ?_, ?_, ?_, by decide⟩
  · rw [hcount, ← layerOf_eq_tierOf, ← layers_baseX, ← layers_spacing]
    simp only [nodeBox]
  · rw [← layerOf_eq_tierOf, ← layers_fixedY]
    simp only [nodeBox]
  · rw [hcount, placeNodes_layerIndexes]
  · rw [hcount, placeNodes_layerIndexes, List.filter_append, List.length_append,
      List.filter_cons_of_pos (by simp)]
    rfl

theorem lane_packing_witness :
    (nodeIDs threeDatabases).Nodup ∧
      calculateNodeOrder threeDatabases ["db2", "db3", "db1"] =
        some ([node "db1"] ++ node "db2" :: [node "db3"]) ∧
      ∃ lay box, calculateNodeLayout threeDatabases ["db2", "db3", "db1"] = some lay ∧
        lay (node "db2").ID = some box ∧
        box.X = tierBaseX (tierOf (node "db2").ID) +
          (([node "db1"].filter (fun x => tierOf x.ID = tierOf (node "db2").ID)).length : Int) *
            tierSpacing (tierOf (node "db2").ID) ∧
        box.Y = tierOffsetY (tierOf (node "db2").ID) ∧
        (placeNodes [node "db1"]).layerIndexes (layerOf (node "db2").ID) =
          ([node "db1"].filter (fun x => tierOf x.ID = tierOf (node "db2").ID)).length ∧
        (placeNodes ([node "db1"] ++ [node "db2"])).layerIndexes (layerOf (node "db2").ID) =
          ([node "db1"].filter (fun x => tierOf x.ID = tierOf (node "db2").ID)).length + 1 ∧
        (calculateNodeLayout threeDatabases ["db3", "db1", "db2"]).map
            (fun lay => [lay "db1", lay "db2", lay "db3"]) =
          some [some ⟨950, 450, 120, 50⟩, some ⟨1090, 450, 120, 50⟩,
            some ⟨1230, 450, 120, 50⟩] :=
  ⟨by decide, by decide,
    lane_packing threeDatabases ["db2", "db3", "db1"] [node "db1"] [node "db3"] (node "db2")
      (by decide) (by decide)⟩

/-- C12: for every node of a graph, the record that `flatten` emits for it has
(x, y) equal to the computed (x, y) when the external x and y are both zero and
to the external (x, y) otherwise, the computed width when the external width is
zero and the external width otherwise, and likewise for the height; external
(0, 0, 80, 0) with computed (300, 250, 150, 50) gives (300, 250, 80, 50). -/
theorem merge_policy (g : Graph) (keyOrder : List String) (obj : Object)
    (hobj : some obj ∈ g.Objects) :
    ∃ d lay box, flatten g keyOrder = some d ∧ calculateNodeLayout g keyOrder = some lay ∧
      lay obj.ID = some box ∧ flattenNode lay obj ∈ d.Nodes ∧
      (flattenNode lay obj).X =
        (if externalX obj = 0 ∧ externalY obj = 0 then box.X else externalX obj) ∧
      (flattenNode lay obj).Y =
        (if externalX obj = 0 ∧ externalY obj = 0 then box.Y else externalY obj) ∧
      (flattenNode lay obj).W = (if obj.Width = 0 then box.Width else obj.Width) ∧
      (flattenNode lay obj).H = (if obj.Height = 0 then box.Height else obj.Height) ∧
      flattenNode (fun _ => some ⟨300, 250, 150, 50⟩) wideWaf =
        ⟨"edge_waf", "edge_waf", 300, 250, 80, 50⟩ ∧
      flatten partlyPlaced ["edge_waf"] =
        some { Nodes := [⟨"edge_waf", "edge_waf", 300, 250, 80, 50⟩], Edges := [] } := by
  obtain ⟨lay, box, o, k, h1, h2, -⟩ := calculateNodeLayout_entry g keyOrder obj hobj
  refine ⟨_, lay, box, flatten_eq g keyOrder lay h1, h1, h2, ?_, ?_, ?_, ?_, ?_,
    by decide, by decide⟩
  · exact List.mem_map.2 ⟨obj, List.reduceOption_mem_iff.2 hobj, rfl⟩
  all_goals rw [flattenNode_of_some lay obj box h2]

theorem merge_policy_witness :
    some wideWaf ∈ partlyPlaced.Objects ∧
      ∃ d lay box, flatten partlyPlaced ["edge_waf"] = some d ∧
        calculateNodeLayout partlyPlaced ["edge_waf"] = some lay ∧
        lay wideWaf.ID = some box ∧ flattenNode lay wideWaf ∈ d.Nodes ∧
        (flattenNode lay wideWaf).X =
          (if externalX wideWaf = 0 ∧ externalY wideWaf = 0 then box.X else externalX wideWaf) ∧
        (flattenNode lay wideWaf).Y =
          (if externalX wideWaf = 0 ∧ externalY wideWaf = 0 then box.Y else externalY wideWaf) ∧
        (flattenNode lay wideWaf).W = (if wideWaf.Width = 0 then box.Width else wideWaf.Width) ∧
        (flattenNode lay wideWaf).H =
          (if wideWaf.Height = 0 then box.Height else wideWaf.Height) ∧
        flattenNode (fun _ => some ⟨300, 250, 150, 50⟩) wideWaf =
          ⟨"edge_waf", "edge_waf", 300, 250, 80, 50⟩ ∧
        flatten partlyPlaced ["edge_waf"] =
          some { Nodes := [⟨"edge_waf", "edge_waf", 300, 250, 80, 50⟩], Edges := [] } :=
  ⟨by decide, merge_policy partlyPlaced ["edge_waf"] wideWaf (by decide)⟩

/-- C15: `flatten` always returns, and its edge records are, in input order,
one per non-nil edge: Source and Target are the IDs of the ends (the empty
string for a nil end) and Label is the edge's label; an edge with a nil
destination gives a record with its source's ID and an empty Target, and does
not stop the edges after it. -/
theorem flatten_edges (g : Graph) (keyOrder : List String) :
    ∃ d, flatten g keyOrder = some d ∧
      d.Edges = g.Edges.reduceOption.map (fun e =>
        { Source := (e.Src.map Object.ID).getD "", Target := (e.Dst.map Object.ID).getD "",
          Label := e.Label }) ∧
      d.Edges.length = g.Edges.reduceOption.length ∧
      (flatten { Objects := [some (node "a"), some (node "b")]
                 Edges := [some { Src := some (node "a"), Dst := none, Label := "lost" },
                   edge (node "a") (node "b")] } ["a", "b"]).map jDiag.Edges =
        some [⟨"a", "", "lost"⟩, ⟨"a", "b", ""⟩] := by
  obtain ⟨lay, hlay, -⟩ := calculateNodeLayout_keys g keyOrder
  have hfe : flattenEdge = (fun e : Edge =>
      ({ Source := (e.Src.map Object.ID).getD "", Target := (e.Dst.map Object.ID).getD "",
         Label := e.Label } : jEdge)) := by
    funext e
    obtain ⟨src, dst, lbl⟩ := e
    cases src <;> cases dst <;> rfl
  refine ⟨_, flatten_eq g keyOrder lay hlay, ?_, ?_, by decide⟩
  · simp only [hfe]
  · simp only [List.length_map]

/-- C16: `flatten` always returns, and its node records are, in the input's
order, one per non-nil object, with the object's ID as id and as label the
object's label if non-empty and its ID otherwise; on the graph a -> c, a -> b,
b -> c the records come in input order a, b, c while `calculateNodeOrder` gives
a, c, b. -/
theorem flatten_nodes (g : Graph) (keyOrder : List String) :
    ∃ d, flatten g keyOrder = some d ∧
      d.Nodes.map (fun n => (n.ID, n.Label)) =
        g.Objects.reduceOption.map (fun o => (o.ID, if o.Label = "" then o.ID else o.Label)) ∧
      d.Nodes.length = g.Objects.reduceOption.length ∧
      (flatten triangle ["a", "b", "c"]).map (fun d => d.Nodes.map jNode.ID) =
        some ["a", "b", "c"] ∧
      calculateNodeOrder triangle ["a", "b", "c"] = some [node "a", node "c", node "b"] := by
  obtain ⟨lay, hlay, -⟩ := calculateNodeLayout_keys g keyOrder
  refine ⟨_, flatten_eq g keyOrder lay hlay, ?_, ?_, by decide, by decide⟩
  · simp only [List.map_map]
    apply List.map_congr_left
    intro o _
    unfold flattenNode
    by_cases hl : o.Label = "" <;> cases h : lay o.ID <;> simp [hl, h]
  · simp only [List.length_map]

/-- C20 (counterexample): in a graph where `shortQ` and `longQ` share the ID
`q`, the node `shortQ` has all-zero external geometry and its own pass computes
the box (680, 350, 128, 50), but `flatten` emits it with the box
(810, 350, 200, 50) that the later pass of `longQ` stored under `q`. -/
theorem shared_id_emitted_box :
    RangeOrder sharedWide ["p", "q"] ∧
      calculateNodeOrder sharedWide ["p", "q"] = some [node "p", shortQ, longQ] ∧
      externalX shortQ = 0 ∧ externalY shortQ = 0 ∧ shortQ.Width = 0 ∧ shortQ.Height = 0 ∧
      (placeNodes [node "p", shortQ]).layout shortQ.ID = some ⟨680, 350, 128, 50⟩ ∧
      nodeBox shortQ 1 = ⟨680, 350, 128, 50⟩ ∧
      (flatten sharedWide ["p", "q"]).map jDiag.Nodes =
        some [⟨"p", "p", 550, 350, 120, 50⟩, ⟨"q", "aaaaaaaaaaa", 810, 350, 200, 50⟩,
          ⟨"q", "bbbbbbbbbbbbbbbbbbbbbbbbb", 810, 350, 200, 50⟩] := by
  decide

/-- C20 (amended): for every graph, the map returned by `calculateNodeLayout` has
an entry for exactly the IDs of the non-nil objects, so the lookup in `flatten`
succeeds for every emitted node, and a node whose external x, y, width and
height are all zero is emitted with exactly the box stored under its ID: height
50, width in [120, 200], y one of 150, 250, 350, 450; that box is the one
computed in the node's own pass when no other node of the graph shares its
ID. -/
theorem layout_covers_nodes (g : Graph) (keyOrder : List String) :
    ∃ d lay, flatten g keyOrder = some d ∧ calculateNodeLayout g keyOrder = some lay ∧
      (∀ id, lay id ≠ none ↔ id ∈ nodeIDs g) ∧ (∀ n ∈ d.Nodes, lay n.ID ≠ none) ∧
      (∀ obj ∈ g.Objects.reduceOption,
        externalX obj = 0 → externalY obj = 0 → obj.Width = 0 → obj.Height = 0 →
        ∃ box, lay obj.ID = some box ∧ flattenNode lay obj ∈ d.Nodes ∧
          flattenNode lay obj =
            { ID := obj.ID, Label := if obj.Label = "" then obj.ID else obj.Label
              X := box.X, Y := box.Y, W := box.Width, H := box.Height } ∧
          box.Height = 50 ∧ 120 ≤ box.Width ∧ box.Width ≤ 200 ∧
          box.Y ∈ [(150 : Int), 250, 350, 450] ∧
          ((∀ o ∈ g.Objects.reduceOption, o.ID = obj.ID → o = obj) →
            ∃ k, box = nodeBox obj k)) := by
  obtain ⟨lay, hlay, hboxes⟩ := calculateNodeLayout_boxes g keyOrder
  obtain ⟨lay2, hlay2, hkeys⟩ := calculateNodeLayout_keys g keyOrder
  rw [hlay] at hlay2
  cases hlay2
  refine ⟨_, lay, flatten_eq g keyOrder lay hlay, hlay, hkeys, ?_, ?_⟩
  · intro n hn
    obtain ⟨x, hx1, rfl⟩ := List.mem_map.1 hn
    rw [flattenNode_ID]
    exact (hkeys x.ID).2 (List.mem_map.2 ⟨x, hx1, rfl⟩)
  · intro obj hobj hx hy hw hh
    obtain ⟨box, hbox⟩ := Option.ne_none_iff_exists'.1
      ((hkeys obj.ID).2 (List.mem_map.2 ⟨obj, hobj, rfl⟩))
    obtain ⟨o, k, ho, hoid, hb⟩ := hboxes obj.ID box hbox
    refine ⟨box, hbox, List.mem_map.2 ⟨obj, hobj, rfl⟩, ?_, ?_, ?_, ?_, ?_, ?_⟩
    · rw [flattenNode_of_some lay obj box hbox]
      simp [hx, hy, hw, hh]
    · rw [hb]; exact (nodeBox_size o k).1
    · rw [hb]; exact (nodeBox_size o k).2.2.1
    · rw [hb]; exact (nodeBox_size o k).2.2.2
    · rw [hb]; exact layers_fixedY_mem o.ID
    · intro huniq
      have : o = obj := huniq o (List.reduceOption_mem_iff.2 ho) hoid
      subst this
      exact ⟨k, hb⟩

theorem layout_covers_nodes_witness :
    node "db_primary" ∈ tiers.Objects.reduceOption ∧ externalX (node "db_primary") = 0 ∧
      externalY (node "db_primary") = 0 ∧ (node "db_primary").Width = 0 ∧
      (node "db_primary").Height = 0 ∧
      (∀ o ∈ tiers.Objects.reduceOption, o.ID = (node "db_primary").ID → o = node "db_primary") ∧
      ∃ d lay box k, flatten tiers ["client_app", "db_primary", "my_service", "edge_waf",
          "widget"] = some d ∧
        calculateNodeLayout tiers ["client_app", "db_primary", "my_service", "edge_waf",
          "widget"] = some lay ∧
        (∀ id, lay id ≠ none ↔ id ∈ nodeIDs tiers) ∧ (∀ n ∈ d.Nodes, lay n.ID ≠ none) ∧
        lay "db_primary" = some box ∧ box = nodeBox (node "db_primary") k ∧
        flattenNode lay (node "db_primary") ∈ d.Nodes ∧
        flattenNode lay (node "db_primary") =
          { ID := "db_primary", Label := "db_primary"
            X := box.X, Y := box.Y, W := box.Width, H := box.Height } ∧
        box.Height = 50 ∧ 120 ≤ box.Width ∧ box.Width ≤ 200 ∧
        box.Y ∈ [(150 : Int), 250, 350, 450] := by
  refine ⟨by decide, by decide, by decide, by decide, by decide, by decide, ?_⟩
  obtain ⟨d, lay, h1, h2, h3, h4, h5⟩ := layout_covers_nodes tiers
    ["client_app", "db_primary", "my_service", "edge_waf", "widget"]
  obtain ⟨box, h6, h7, h8, h9, h10, h11, h12, h13⟩ := h5 (node "db_primary") (by decide)
    (by decide) (by decide) (by decide) (by decide)
  obtain ⟨k, hk⟩ := h13 (by decide)
  exact ⟨d, lay, box, k, h1, h2, h3, h4, h6, hk, h7, h8, h9, h10, h11, h12⟩

/-- C13 (counterexample): in a graph of four non-nil nodes with different IDs,
the two network nodes get the boxes x = 300 and x = 420 of width 128 at
y = 250, which overlap, and the application node and the default node both get
the box at x = 550, y = 350. -/
theorem same_lane_overlap :
    RangeOrder crowded ["network_abc", "network_abd", "my_service", "widget"] ∧
      (∀ o ∈ crowded.Objects, o ≠ none) ∧ (nodeIDs crowded).Nodup ∧
      (calculateNodeLayout crowded ["network_abc", "network_abd", "my_service", "widget"]).map
          (fun lay => [lay "network_abc", lay "network_abd", lay "my_service", lay "widget"]) =
        some [some ⟨300, 250, 128, 50⟩, some ⟨420, 250, 128, 50⟩, some ⟨550, 350, 120, 50⟩,
          some ⟨550, 350, 120, 50⟩] ∧
      Overlap ⟨300, 250, 128, 50⟩ ⟨420, 250, 128, 50⟩ ∧
      Overlap ⟨550, 350, 120, 50⟩ ⟨550, 350, 120, 50⟩ := by
  decide

/-- C13 (amended): in a graph with pairwise different IDs, two distinct nodes of
the same tier get boxes with the same y whose x differ by at least the tier's
spacing, so the boxes do not overlap horizontally unless one of them is wider
than the spacing. -/
theorem same_tier_spacing (g : Graph) (keyOrder : List String) (a b : Object)
    (hd : (nodeIDs g).Nodup) (ha : some a ∈ g.Objects) (hb : some b ∈ g.Objects)
    (hab : a ≠ b) (ht : tierOf a.ID = tierOf b.ID) :
    ∃ lay ba bb, calculateNodeLayout g keyOrder = some lay ∧ lay a.ID = some ba ∧
      lay b.ID = some bb ∧ ba.Y = bb.Y ∧
      (ba.X + tierSpacing (tierOf a.ID) ≤ bb.X ∨ bb.X + tierSpacing (tierOf a.ID) ≤ ba.X) ∧
      (¬ Overlap ba bb ∨ tierSpacing (tierOf a.ID) < ba.Width ∨
        tierSpacing (tierOf a.ID) < bb.Width) := by
  obtain ⟨r, hr, hp⟩ := nodeOrder_perm g keyOrder hd
  have hnd := nodeOrder_nodup_ids g keyOrder hd r hr
  have har : a ∈ r := hp.mem_iff.2 (List.reduceOption_mem_iff.2 ha)
  have hbr : b ∈ r := hp.mem_iff.2 (List.reduceOption_mem_iff.2 hb)
  have hlay := calculateNodeLayout_of_order g keyOrder r (List.ne_nil_of_mem har) hr
  have htl : layerOf a.ID = layerOf b.ID := by rw [layerOf_eq_tierOf, layerOf_eq_tierOf, ht]
  have key : ∃ ba bb, (placeNodes r).layout a.ID = some ba ∧
      (placeNodes r).layout b.ID = some bb ∧ ba.Y = bb.Y ∧
      (ba.X + tierSpacing (tierOf a.ID) ≤ bb.X ∨ bb.X + tierSpacing (tierOf a.ID) ≤ ba.X) := by
    obtain ⟨pre, mid, suf, h | h⟩ := split_two har hbr hab
    · subst h
      obtain ⟨ka, kb, h1, h2, h3, h4⟩ := placeNodes_same_tier pre mid suf a b hnd htl
      rw [layerOf_eq_tierOf] at h4
      exact ⟨_, _, h1, h2, h3, Or.inl h4⟩
    · subst h
      obtain ⟨kb, ka, h1, h2, h3, h4⟩ := placeNodes_same_tier pre mid suf b a hnd htl.symm
      rw [layerOf_eq_tierOf, ← ht] at h4
      exact ⟨_, _, h2, h1, h3.symm, Or.inr h4⟩
  obtain ⟨ba, bb, h1, h2, h3, h4⟩ := key
  refine ⟨_, ba, bb, hlay, h1, h2, h3, h4, ?_⟩
  by_cases hwa : tierSpacing (tierOf a.ID) < ba.Width
  · exact Or.inr (Or.inl hwa)
  · by_cases hwb : tierSpacing (tierOf a.ID) < bb.Width
    · exact Or.inr (Or.inr hwb)
    · left
      unfold Overlap
      rcases h4 with h | h
      · intro hov
        omega
      · intro hov
        omega

theorem same_tier_spacing_witness :
    (nodeIDs crowded).Nodup ∧ some (node "network_abc") ∈ crowded.Objects ∧
      some (node "network_abd") ∈ crowded.Objects ∧ node "network_abc" ≠ node "network_abd" ∧
      tierOf (node "network_abc").ID = tierOf (node "network_abd").ID ∧
      ∃ lay ba bb, calculateNodeLayout crowded ["widget", "network_abd", "my_service",
          "network_abc"] = some lay ∧
        lay (node "network_abc").ID = some ba ∧ lay (node "network_abd").ID = some bb ∧
        ba.Y = bb.Y ∧
        (ba.X + tierSpacing (tierOf (node "network_abc").ID) ≤ bb.X ∨
          bb.X + tierSpacing (tierOf (node "network_abc").ID) ≤ ba.X) ∧
        (¬ Overlap ba bb ∨ tierSpacing (tierOf (node "network_abc").ID) < ba.Width ∨
          tierSpacing (tierOf (node "network_abc").ID) < bb.Width) :=
  ⟨by decide, by decide, by decide, by decide, by decide,
    same_tier_spacing crowded _ (node "network_abc") (node "network_abd") (by decide)
      (by decide) (by decide) (by decide) (by decide)⟩

/-- C14 (counterexample): for the graph with the single node `a` and an edge
from `a` to an object `z` outside the object list, `flatten` emits an edge
record whose Target `z` is non-empty and is the id of no node record. -/
theorem dangling_edge_record :
    RangeOrder dangling ["a"] ∧
      ∃ d, flatten dangling ["a"] = some d ∧
        ∃ e ∈ d.Edges, e.Target ≠ "" ∧ e.Target ∉ d.Nodes.map jNode.ID :=
  ⟨by decide, { Nodes := [⟨"a", "a", 550, 350, 120, 50⟩], Edges := [⟨"a", "z", ""⟩] },
    by decide, ⟨"a", "z", ""⟩, by decide, by decide, by decide⟩

/-- C14 (amended): when every end of every non-nil edge is nil or carries the
ID of a non-nil object of the graph, every non-empty Source or Target of an edge
record of `flatten`'s output is the id of a node record of that output; a nil
end gives the empty string on its side, and `flatten` returns in every case. -/
theorem edge_ends_are_nodes (g : Graph) (keyOrder : List String)
    (hends : ∀ e ∈ g.Edges.reduceOption, EndKnown g e.Src ∧ EndKnown g e.Dst) :
    ∃ d, flatten g keyOrder = some d ∧
      (∀ e ∈ d.Edges, (e.Source = "" ∨ e.Source ∈ d.Nodes.map jNode.ID) ∧
        (e.Target = "" ∨ e.Target ∈ d.Nodes.map jNode.ID)) ∧
      (∀ e ∈ g.Edges.reduceOption, (e.Src = none → (flattenEdge e).Source = "") ∧
        (e.Dst = none → (flattenEdge e).Target = "")) := by
  obtain ⟨lay, hlay, -⟩ := calculateNodeLayout_keys g keyOrder
  refine ⟨_, flatten_eq g keyOrder lay hlay, ?_, ?_⟩
  · intro rec hrec
    simp only [flatten_node_ids]
    obtain ⟨e, he, rfl⟩ := List.mem_map.1 hrec
    obtain ⟨h1, h2⟩ := hends e he
    obtain ⟨src, dst, lbl⟩ := e
    constructor
    · cases src with
      | none => left; rfl
      | some x => right; exact h1
    · cases dst with
      | none => left; rfl
      | some x => right; exact h2
  · intro e _
    obtain ⟨src, dst, lbl⟩ := e
    constructor
    · intro h
      simp only at h
      subst h
      rfl
    · intro h
      simp only at h
      subst h
      rfl

theorem edge_ends_are_nodes_witness :
    (∀ e ∈ triangle.Edges.reduceOption, EndKnown triangle e.Src ∧ EndKnown triangle e.Dst) ∧
      ∃ d, flatten triangle ["b", "c", "a"] = some d ∧
        (∀ e ∈ d.Edges, (e.Source = "" ∨ e.Source ∈ d.Nodes.map jNode.ID) ∧
          (e.Target = "" ∨ e.Target ∈ d.Nodes.map jNode.ID)) ∧
        (∀ e ∈ triangle.Edges.reduceOption, (e.Src = none → (flattenEdge e).Source = "") ∧
          (e.Dst = none → (flattenEdge e).Target = "")) :=
  ⟨by decide, edge_ends_are_nodes triangle ["b", "c", "a"] (by decide)⟩

/-- C17: invalid edges contribute nothing to the ordering.  Two edge lists over
the same objects that agree once nil edges, edges with a nil end and edges with
an end whose ID belongs to no node are dropped give the same result of
`calculateNodeOrder` (under the same iteration orders of the map); in
particular dropping all of these edges changes nothing. -/
theorem invalid_edges_ignored (objs : List (Option Object)) (es1 es2 : List (Option Edge))
    (keyOrder : List String)
    (h : es1.filter (validEdge objs) = es2.filter (validEdge objs)) :
    calculateNodeOrder { Objects := objs, Edges := es1 } keyOrder =
        calculateNodeOrder { Objects := objs, Edges := es2 } keyOrder ∧
      calculateNodeOrder { Objects := objs, Edges := es1 } keyOrder =
        calculateNodeOrder { Objects := objs, Edges := es1.filter (validEdge objs) } keyOrder ∧
      (RangeOrder { Objects := objs, Edges := es1 } keyOrder ↔
        RangeOrder { Objects := objs, Edges := es2 } keyOrder) := by
  refine ⟨?_, ?_, ?_⟩
  · exact calculateNodeOrder_congr { Objects := objs, Edges := es1 }
      { Objects := objs, Edges := es2 } keyOrder rfl
      (by rw [← entries_filter_valid objs es1, ← entries_filter_valid objs es2, h])
  · exact calculateNodeOrder_congr { Objects := objs, Edges := es1 }
      { Objects := objs, Edges := es1.filter (validEdge objs) } keyOrder rfl
      (by rw [entries_filter_valid])
  · unfold RangeOrder
    rw [buildAdjacency_keys, buildAdjacency_keys]

theorem invalid_edges_ignored_witness :
    (noisyEdges.filter (validEdge dangling.Objects) =
        ([] : List (Option Edge)).filter (validEdge dangling.Objects)) ∧
      (calculateNodeOrder { Objects := dangling.Objects, Edges := noisyEdges } ["a"] =
          calculateNodeOrder { Objects := dangling.Objects, Edges := [] } ["a"] ∧
        calculateNodeOrder { Objects := dangling.Objects, Edges := noisyEdges } ["a"] =
          calculateNodeOrder
            { Objects := dangling.Objects, Edges := noisyEdges.filter (validEdge dangling.Objects) }
            ["a"] ∧
        (RangeOrder { Objects := dangling.Objects, Edges := noisyEdges } ["a"] ↔
          RangeOrder { Objects := dangling.Objects, Edges := [] } ["a"])) :=
  ⟨by decide, invalid_edges_ignored dangling.Objects noisyEdges [] ["a"] (by decide)⟩

/-- C18 (counterexample): with a node `p`, two objects that share the ID `q` and
a self-loop on `q`, the result lists both objects of ID `q`, so two entries have
the same ID. -/
theorem shared_id_repeated :
    RangeOrder sharedID ["p", "q"] ∧
      ∃ r, calculateNodeOrder sharedID ["p", "q"] = some r ∧ ¬ (r.map Object.ID).Nodup :=
  ⟨by decide,
    [node "p", { ID := "q", Label := "first", TopLeft := none, Width := 0, Height := 0 },
      { ID := "q", Label := "second", TopLeft := none, Width := 0, Height := 0 }],
    by decide, by decide⟩

/-- C18 (amended): for every input graph, also one in which objects share an
ID, the set of IDs in the result of `calculateNodeOrder` equals the set of IDs
of the non-nil input objects; the result is the part appended by the queue
loop, in which no two entries share an ID, followed by the non-nil objects whose
ID is not in that part; and no ID occurs more often in the result than among
the input objects. -/
theorem order_ids (g : Graph) (keyOrder : List String) :
    ∃ r0 r, calculateNodeOrder g keyOrder = some r ∧
      r = r0 ++ g.Objects.reduceOption.filter (fun o => o.ID ∉ r0.map Object.ID) ∧
      (r0.map Object.ID).Nodup ∧
      (∀ id, id ∈ r.map Object.ID ↔ id ∈ nodeIDs g) ∧
      (∀ id, (r.map Object.ID).count id ≤ (nodeIDs g).count id) := by
  obtain ⟨queue, r0, -, -, hc, hn, hm, -⟩ := calculateNodeOrder_spec g keyOrder
  obtain ⟨r, hr, hmem, hcov⟩ := calculateNodeOrder_cover g keyOrder
  have hrr : r = r0 ++ g.Objects.reduceOption.filter (fun o => o.ID ∉ r0.map Object.ID) := by
    rw [hr] at hc
    exact Option.some.inj hc
  refine ⟨r0, r, hr, hrr, hn, ?_, ?_⟩
  · intro id
    constructor
    · intro h
      obtain ⟨x, hx, rfl⟩ := List.mem_map.1 h
      exact List.mem_map.2 ⟨x, List.reduceOption_mem_iff.2 (hmem x hx), rfl⟩
    · intro h
      obtain ⟨x, hx, rfl⟩ := List.mem_map.1 h
      exact hcov x (List.reduceOption_mem_iff.1 hx)
  · intro id
    rw [hrr, List.map_append, List.count_append]
    by_cases hid : id ∈ r0.map Object.ID
    · have h1 : (r0.map Object.ID).count id ≤ 1 := List.nodup_iff_count_le_one.1 hn id
      have h2 : ((g.Objects.reduceOption.filter
          (fun o => o.ID ∉ r0.map Object.ID)).map Object.ID).count id = 0 := by
        rw [List.count_eq_zero]
        intro hmem2
        obtain ⟨x, hx, hxid⟩ := List.mem_map.1 hmem2
        have := (List.mem_filter.1 hx).2
        simp only [decide_eq_true_eq] at this
        exact this (hxid ▸ hid)
      have h3 : 1 ≤ (nodeIDs g).count id := by
        rw [List.one_le_count_iff]
        obtain ⟨x, hx, rfl⟩ := List.mem_map.1 hid
        exact List.mem_map.2 ⟨x, List.reduceOption_mem_iff.2 (hm x hx), rfl⟩
      omega
    · rw [List.count_eq_zero.2 hid, Nat.zero_add]
      exact List.Sublist.count_le ((List.filter_sublist _).map _) id

/-- C19: in a graph with pairwise different IDs, under every iteration order of
the map, every node of in-degree zero among the valid edges comes before every
node of positive in-degree in the result of `calculateNodeOrder`. -/
theorem roots_first (g : Graph) (keyOrder : List String) (a b : Object)
    (hd : (nodeIDs g).Nodup) (hko : RangeOrder g keyOrder)
    (ha : some a ∈ g.Objects) (hb : some b ∈ g.Objects)
    (ha0 : inDegree g a.ID = 0) (hb1 : 0 < inDegree g b.ID) :
    ∃ r, calculateNodeOrder g keyOrder = some r ∧ Before r a b := by
  have hkeys : ∀ id, id ∈ keyOrder ↔ id ∈ nodeIDs g := by
    intro id
    unfold RangeOrder at hko
    rw [hko.mem_iff, buildAdjacency_keys, initMaps_mem_keys]
    rfl
  have hknd : keyOrder.Nodup := by
    unfold RangeOrder at hko
    rw [hko.nodup_iff, buildAdjacency_keys]
    exact initMaps_keys_nodup _
  have haid : a.ID ∈ nodeIDs g := List.mem_map.2 ⟨a, List.reduceOption_mem_iff.2 ha, rfl⟩
  obtain ⟨S, hS, hSnd, hSmem⟩ := seedQueue_nodes (buildAdjacency g) keyOrder (by
    intro id o h
    rw [buildAdjacency_objMap] at h
    exact (initMaps_objMap_some h).2) hknd
  have haS : a ∈ S := by
    rw [hSmem]
    refine ⟨a.ID, (hkeys _).2 haid, ?_, ?_⟩
    · rw [buildAdjacency_incoming_inDegree, if_pos haid, ha0]
    · rw [buildAdjacency_objMap]
      exact initMaps_objMap_self hd ha
  have hbS : b ∉ S := by
    intro h
    obtain ⟨id, -, h1, h2⟩ := (hSmem b).1 h
    rw [buildAdjacency_objMap] at h2
    have hid := (initMaps_objMap_some h2).2
    rw [← hid, buildAdjacency_incoming_inDegree] at h1
    split_ifs at h1
    simp only [Option.some.injEq] at h1
    omega
  obtain ⟨queue, r0, hq, hp, hc, -⟩ := calculateNodeOrder_spec g keyOrder
  have hqS : queue = S.map some := by
    unfold startQueue at hq
    simp only [hS] at hq
    rw [if_neg (by
      intro h
      have := h.1
      rw [List.length_map, List.length_eq_zero] at this
      rw [this] at haS
      simp at haS)] at hq
    exact (Option.some.inj hq).symm
  subst hqS
  have hp2 : processQueue (buildAdjacency g).outgoing ((S.map some).length + g.Edges.length)
      (S.map some ++ []) [] [] = some ((r0.map Object.ID).reverse, r0) := by
    rw [List.append_nil]; exact hp
  obtain ⟨extra, hextra⟩ := processQueue_front _ S _ [] [] [] _ _ hSnd (by simp) hp2
  obtain ⟨r, hr, hperm⟩ := nodeOrder_perm g keyOrder hd
  refine ⟨r, hr, ?_⟩
  have hrr : r = S ++ (extra ++ g.Objects.reduceOption.filter
      (fun o => o.ID ∉ r0.map Object.ID)) := by
    rw [hr] at hc
    rw [Option.some.inj hc, hextra]
    simp
  have hbr : b ∈ r := hperm.mem_iff.2 (List.reduceOption_mem_iff.2 hb)
  refine ⟨hperm.mem_iff.2 (List.reduceOption_mem_iff.2 ha), hbr, ?_⟩
  rw [hrr, List.indexOf_append_of_mem haS, List.indexOf_append_of_not_mem hbS]
  have := List.indexOf_lt_length.2 haS
  omega

theorem roots_first_witness :
    (nodeIDs triangle).Nodup ∧ RangeOrder triangle ["c", "b", "a"] ∧
      some (node "a") ∈ triangle.Objects ∧ some (node "b") ∈ triangle.Objects ∧
      inDegree triangle (node "a").ID = 0 ∧ 0 < inDegree triangle (node "b").ID ∧
      ∃ r, calculateNodeOrder triangle ["c", "b", "a"] = some r ∧
        Before r (node "a") (node "b") :=
  ⟨by decide, by decide, by decide, by decide, by decide, by decide,
    roots_first triangle ["c", "b", "a"] (node "a") (node "b") (by decide) (by decide)
      (by decide) (by decide) (by decide) (by decide)⟩

end D2Json
